import Mathlib

/-!
A verification development for the `pyrcv` single-transferable-vote engine
(`pyrcv/pyrcv.py`).  The numpy-based tabulator is embedded shallowly:

* floating-point vote arithmetic is modelled exactly over `ℚ`;
* the per-candidate `status` array, the per-ballot `valid` mask, the weight
  matrix and the pointer array `orig` are modelled as functions out of `ℕ`,
  read only on the index ranges the arrays actually have;
* the unseeded `np.random.choice` tie-break is modelled by an explicit
  parameter `pick : List ℕ → ℕ`, with `PickMem pick` stating the one fact
  `np.random.choice` guarantees (the choice is a member of its argument);
* the unbounded `while` loop is run on a fuel of one round per candidate;
  the termination theorem shows this fuel is never exhausted on valid input;
* exceptions are modelled by `Except` with an `RcvError` tag per `raise` site.
-/

namespace PyRcv

/-- Sum of `f` over `0, …, n-1`: the numpy reductions (`np.sum`, `bincount`). -/
def sumR (n : ℕ) (f : ℕ → ℚ) : ℚ := ∑ i in Finset.range n, f i

/-- Indices `c < n` with `p c`, ascending: `np.nonzero(...)[0]` on a mask of size `n`. -/
def idxWhere (n : ℕ) (p : ℕ → Bool) : List ℕ := (List.range n).filter p

/-- Number of indices `c < n` with `p c`: `np.count_nonzero` on a mask of size `n`. -/
def cnt (n : ℕ) (p : ℕ → Bool) : ℕ := (idxWhere n p).length

/-- Helper for `_first_nonzero`: first index `j` with `i ≤ j < i + k` and `v j`, else `-1`. -/
def fvAux (v : ℕ → Bool) : ℕ → ℕ → ℤ
  | _, 0 => -1
  | i, k + 1 => if v i then (i : ℤ) else fvAux v (i + 1) k

/-- `_first_nonzero` along one row of length `S`: index of the first `true`, or `-1`. -/
def firstValid (S : ℕ) (v : ℕ → Bool) : ℤ := fvAux v 0 S

/-- `collections.defaultdict(int)` accumulation, keeping first-insertion key order. -/
def accAdd (l : List (ℕ × ℚ)) (c : ℕ) (v : ℚ) : List (ℕ × ℚ) :=
  if l.any (fun p => p.1 == c) then l.map (fun p => if p.1 = c then (p.1, p.2 + v) else p)
  else l ++ [(c, v)]

/-- Minimum of `counts` over a list of candidate indices: `counts_masked.min()`. -/
def minOver (counts : ℕ → ℚ) : List ℕ → ℚ
  | [] => 0
  | a :: rest => rest.foldl (fun m c => min m (counts c)) (counts a)

/-- `np.isclose` with its default tolerances `rtol = 1e-5`, `atol = 1e-8`,
in exact rational arithmetic. -/
def isclose (a b : ℚ) : Bool := decide (|a - b| ≤ 1 / 100000000 + |b| / 100000)

/-- The `RoundMode` enum: how to round a fractional vote threshold to win. -/
inductive RoundMode
  | CEILING
  | ADD_ONE_FLOOR
  | FRACTIONAL
deriving DecidableEq

/-- `EPSILON = 1e-5`, the slack added by `RoundMode.FRACTIONAL` (the float literal
`1e-5` is modelled by the exact rational it denotes). -/
def EPSILON : ℚ := 1 / 100000

/-- One tag per `raise` site reachable in the embedded code, plus `fuelOut` for
exhaustion of the loop fuel (shown unreachable on valid input). -/
inductive RcvError
  | axisError
  | oob (rows : List ℕ)
  | dup (row : List ℤ)
  | emptyChoice
  | conservation
  | fuelOut
deriving DecidableEq

/-- Exception propagation (a `raise` aborts the caller), with definitional
equations for the two outcomes. -/
def exBind {α β : Type} (x : Except RcvError α) (f : α → Except RcvError β) :
    Except RcvError β :=
  match x with
  | .error e => .error e
  | .ok a => f a

theorem exBind_ok {α β : Type} (a : α) (f : α → Except RcvError β) :
    exBind (.ok a) f = f a := rfl

theorem exBind_error {α β : Type} (e : RcvError) (f : α → Except RcvError β) :
    exBind (.error e) f = .error e := rfl

/-- `RaceMetadata` from `pyrcv/types.py`. -/
structure RaceMetadata where
  race_name : String
  num_winners : ℕ
  names : List String
deriving DecidableEq

/-- `RaceData` from `pyrcv/types.py`. -/
structure RaceData where
  metadata : RaceMetadata
  ballots : List (List ℤ)
  votes : List ℤ
deriving DecidableEq

/-- `RoundResult` from `pyrcv/types.py`.  The two-level transfer dict is modelled
as an association list in Python-dict insertion order. -/
structure RoundResult where
  count : List ℚ
  elected : List ℕ
  eliminated : List ℕ
  transfers : List (ℕ × List (ℕ × ℚ))
deriving DecidableEq

/-- `RaceResult` from `pyrcv/types.py`. -/
structure RaceResult where
  metadata : RaceMetadata
  rounds : List RoundResult
deriving DecidableEq

/-- Conversion to numpy's `int8` (the ballot matrix is built with `dtype=np.int8`,
so entries wrap modulo 256 into `[-128, 127]`). -/
def toInt8 (x : ℤ) : ℤ := (x + 128) % 256 - 128

/-- Right-pad one ballot row with the sentinel `0` to length `L` (`zip_longest`). -/
def padTo (r : List ℤ) (L : ℕ) : List ℤ := r ++ List.replicate (L - r.length) 0

/-- Length of the longest ballot row. -/
def maxLen (ballots : List (List ℤ)) : ℕ := (ballots.map List.length).foldr max 0

/-- One row holds an entry outside `[0, num_cands]`. -/
def rowOOB (row : List ℤ) (numCands : ℕ) : Bool :=
  row.any (fun x => decide (x < 0) || decide ((numCands : ℤ) < x))

/-- `check_oob`: the row indices carrying an out-of-range entry (the indices named
by the `ValueError` when non-empty). -/
def check_oob (M : List (List ℤ)) (numCands : ℕ) : List ℕ :=
  idxWhere M.length (fun i => rowOOB (M.getD i []) numCands)

/-- `check_dup_1d`: some non-zero entry occurs more than once in the row. -/
def check_dup_1d (row : List ℤ) : Bool :=
  row.any (fun x => decide (x ≠ 0) && decide (2 ≤ row.count x))

/-- `validate_and_standardize_ballots` (lines 216-245): pad rows to a rectangle
with `0`, cast to `int8`, reject out-of-range entries (naming all offending rows)
then duplicated non-zero entries (naming the first offending row), and append one
`0` column.  A ballot list with no columns at all makes `np.apply_along_axis`
raise, modelled by `axisError`. -/
def validate_and_standardize_ballots (ballots : List (List ℤ)) (numCands : ℕ) :
    Except RcvError (List (List ℤ)) :=
  if maxLen ballots = 0 then .error .axisError
  else if check_oob (ballots.map fun r => (padTo r (maxLen ballots)).map toInt8) numCands ≠ []
  then
    .error (.oob (check_oob (ballots.map fun r => (padTo r (maxLen ballots)).map toInt8) numCands))
  else
    match (ballots.map fun r => (padTo r (maxLen ballots)).map toInt8).find? check_dup_1d with
    | some r => .error (.dup r)
    | none =>
      .ok ((ballots.map fun r => (padTo r (maxLen ballots)).map toInt8).map fun r => r ++ [0])

/-- The threshold computation of `run_rcv` (lines 93-99), run once before round 1. -/
def votesNeeded (total : ℚ) (numWinners : ℕ) (mode : RoundMode) : ℚ :=
  let raw := total / (numWinners + 1)
  match mode with
  | .CEILING => (⌈raw⌉ : ℚ)
  | .ADD_ONE_FLOOR => (⌊1 + raw⌋ : ℚ)
  | .FRACTIONAL => raw + EPSILON

theorem votesNeeded_nonneg (total : ℚ) (numWinners : ℕ) (mode : RoundMode)
    (h : 0 ≤ total) : 0 ≤ votesNeeded total numWinners mode := by
  have hraw : 0 ≤ total / (numWinners + 1) := by positivity
  cases mode with
  | CEILING =>
    show (0 : ℚ) ≤ (⌈total / (numWinners + 1)⌉ : ℚ)
    exact_mod_cast Int.ceil_nonneg hraw
  | ADD_ONE_FLOOR =>
    show (0 : ℚ) ≤ (⌊1 + total / (numWinners + 1)⌋ : ℚ)
    have h2 : (0 : ℤ) ≤ ⌊(1 : ℚ) + total / (numWinners + 1)⌋ :=
      Int.floor_nonneg.mpr (by positivity)
    exact_mod_cast h2
  | FRACTIONAL =>
    show (0 : ℚ) ≤ total / (numWinners + 1) + EPSILON
    rw [EPSILON]
    positivity

/-- The race-constant data consumed by the round loop. -/
structure Ctx where
  B : ℕ
  S : ℕ
  numSlots : ℕ
  W : ℕ
  bal : ℕ → ℕ → ℕ
  votes : ℕ → ℚ
  total : ℚ
  vn : ℚ

/-- The per-round mutable state of the tabulator. -/
structure St where
  status : ℕ → ℤ
  valid : ℕ → ℕ → Bool
  weights : ℕ → ℕ → ℚ
  orig : ℕ → ℤ

/-- `np.bincount(ballots.ravel(), (weights * votes).ravel(), num_slots)` at slot `c`. -/
def tallyAt (ctx : Ctx) (w : ℕ → ℕ → ℚ) (c : ℕ) : ℚ :=
  sumR ctx.B fun b => sumR ctx.S fun s =>
    if ctx.bal b s = c then w b s * ctx.votes b else 0

/-- The `counts` vector recorded in a `RoundResult`. -/
def countsList (ctx : Ctx) (w : ℕ → ℕ → ℚ) : List ℚ :=
  (List.range ctx.numSlots).map (tallyAt ctx w)

/-- `np.count_nonzero(status == 0)`: undecided candidates. -/
def cZero (n : ℕ) (status : ℕ → ℤ) : ℕ := cnt n fun c => decide (status c = 0)

/-- `np.count_nonzero(status > 0)`: elected candidates. -/
def cPos (n : ℕ) (status : ℕ → ℤ) : ℕ := cnt n fun c => decide (0 < status c)

/-- `np.count_nonzero(status >= 0)`: candidates elected or still in the running. -/
def cGE (n : ℕ) (status : ℕ → ℤ) : ℕ := cnt n fun c => decide (0 ≤ status c)

/-- `valid[ballots == cand] = False` (line 177). -/
def dtValid (ctx : Ctx) (st : St) (cand : ℕ) : ℕ → ℕ → Bool :=
  fun b s => st.valid b s && !(ctx.bal b s == cand)

/-- `next = _first_nonzero(valid, axis=1)` (line 178). -/
def dtNext (ctx : Ctx) (st : St) (cand : ℕ) : ℕ → ℤ :=
  fun b => firstValid ctx.S (dtValid ctx st cand b)

/-- The weight matrix after the two vectorized writes of lines 186-188: on each
ballot whose pointer moved, the next position receives the old pointer weight
scaled by `1 - mult` and the old pointer position is scaled by `mult`. -/
def dtWeights (ctx : Ctx) (st : St) (cand : ℕ) (mult : ℚ) : ℕ → ℕ → ℚ := fun b s =>
  if (st.orig b ≠ dtNext ctx st cand b ∧ dtNext ctx st cand b ≠ -1) ∧
      (s : ℤ) = dtNext ctx st cand b then
    st.weights b (st.orig b).toNat * (1 - mult)
  else if st.orig b ≠ dtNext ctx st cand b ∧ (s : ℤ) = st.orig b then st.weights b s * mult
  else st.weights b s

/-- The per-candidate transfer dict of lines 190-194, in insertion order. -/
def dtTc (ctx : Ctx) (st : St) (cand : ℕ) (mult : ℚ) : List (ℕ × ℚ) :=
  (List.range ctx.B).foldl
    (fun acc b =>
      if st.orig b ≠ dtNext ctx st cand b ∧ dtNext ctx st cand b ≠ -1 then
        let v := dtWeights ctx st cand mult b (dtNext ctx st cand b).toNat * ctx.votes b
        if v ≠ 0 then accAdd acc (ctx.bal b (dtNext ctx st cand b).toNat) v else acc
      else acc)
    []

/-- One iteration of the transfer loop (lines 176-198) for one removed candidate:
invalidate the candidate's ballot positions, advance each affected ballot's
pointer, split the weight into a retained share (`mult`) and a transferred share
(`1 - mult`), and accumulate the non-zero voters-weighted transfer amounts. -/
def doTransfer (ctx : Ctx) (st : St) (cand : ℕ) (mult : ℚ) : List (ℕ × ℚ) × St :=
  (dtTc ctx st cand mult,
    { status := st.status, valid := dtValid ctx st cand,
      weights := dtWeights ctx st cand mult, orig := dtNext ctx st cand })

/-- The transfer loop over all candidates removed this round (lines 175-198),
threading the state and collecting the non-empty per-candidate transfer dicts. -/
def applyRemovals (ctx : Ctx) (removals : List (ℕ × ℚ))
    (p : List (ℕ × List (ℕ × ℚ)) × St) : List (ℕ × List (ℕ × ℚ)) × St :=
  removals.foldl
    (fun p cm =>
      let r := doTransfer ctx p.2 cm.1 cm.2
      (if r.1 = [] then p.1 else p.1 ++ [(cm.1, r.1)], r.2))
    p

/-- The three-way branch of lines 145-170: the early stop when the non-eliminated
candidates are exactly the required winners, otherwise the election of every
undecided candidate at or above the threshold, otherwise the elimination of a
random minimum-tally undecided candidate.  Returns the newly elected and
eliminated lists, the removals (candidate, retain multiplier) driving the
transfer loop, and the updated status array. -/
def stepDecision (pick : List ℕ → ℕ) (ctx : Ctx) (st : St) :
    Except RcvError (List ℕ × List ℕ × List (ℕ × ℚ) × (ℕ → ℤ)) :=
  if cGE ctx.numSlots st.status = ctx.W then
    .ok (idxWhere ctx.numSlots (fun c => decide (st.status c = 0)), [], [],
      fun c => if st.status c = 0 then 1 else st.status c)
  else if idxWhere ctx.numSlots
      (fun c => decide (st.status c = 0 ∧ ctx.vn ≤ tallyAt ctx st.weights c)) ≠ [] then
    .ok (idxWhere ctx.numSlots
      (fun c => decide (st.status c = 0 ∧ ctx.vn ≤ tallyAt ctx st.weights c)), [],
      (idxWhere ctx.numSlots
        (fun c => decide (st.status c = 0 ∧ ctx.vn ≤ tallyAt ctx st.weights c))).map
        (fun c => (c, ctx.vn / tallyAt ctx st.weights c)),
      fun c => if st.status c = 0 ∧ ctx.vn ≤ tallyAt ctx st.weights c then 1 else st.status c)
  else if idxWhere ctx.numSlots (fun c => decide (st.status c = 0)) = [] then .error .emptyChoice
  else
    .ok ([],
      [pick ((idxWhere ctx.numSlots (fun c => decide (st.status c = 0))).filter
        fun c => tallyAt ctx st.weights c ==
          minOver (tallyAt ctx st.weights) (idxWhere ctx.numSlots fun c => decide (st.status c = 0)))],
      [(pick ((idxWhere ctx.numSlots (fun c => decide (st.status c = 0))).filter
        fun c => tallyAt ctx st.weights c ==
          minOver (tallyAt ctx st.weights) (idxWhere ctx.numSlots fun c => decide (st.status c = 0))), 0)],
      fun c =>
        if c = pick ((idxWhere ctx.numSlots (fun c => decide (st.status c = 0))).filter
            fun c => tallyAt ctx st.weights c ==
              minOver (tallyAt ctx st.weights)
                (idxWhere ctx.numSlots fun c => decide (st.status c = 0))) then -1
        else st.status c)

/-- One iteration of the round loop of `run_rcv` (lines 121-206): tally, decide,
transfer, check conservation of the tally snapshot, record the `RoundResult`. -/
def step (pick : List ℕ → ℕ) (ctx : Ctx) (st : St) :
    Except RcvError (RoundResult × St) :=
  exBind (stepDecision pick ctx st) fun q =>
    if isclose (countsList ctx st.weights).sum ctx.total then
      .ok (⟨countsList ctx st.weights, q.1, q.2.1,
        (applyRemovals ctx q.2.2.1 ([], { st with status := q.2.2.2 })).1⟩,
        (applyRemovals ctx q.2.2.1 ([], { st with status := q.2.2.2 })).2)
    else .error .conservation

/-- The `while` loop of `run_rcv`, run on explicit fuel (one round per unit). -/
def runLoop (pick : List ℕ → ℕ) (ctx : Ctx) : ℕ → St → Except RcvError (List RoundResult)
  | 0, st =>
    if cPos ctx.numSlots st.status < ctx.W then .error .fuelOut
    else .ok []
  | fuel + 1, st =>
    if cPos ctx.numSlots st.status < ctx.W then
      exBind (step pick ctx st) fun rs =>
        exBind (runLoop pick ctx fuel rs.2) fun rest => .ok (rs.1 :: rest)
    else .ok []

/-- The race-constant context built by `run_rcv` from the validated ballot
matrix `M` (lines 70-101). -/
def mkCtx (race : RaceData) (mode : RoundMode) (M : List (List ℤ)) : Ctx where
  B := M.length
  S := maxLen race.ballots + 1
  numSlots := race.metadata.names.length + 1
  W := race.metadata.num_winners
  bal := fun b s => ((M.getD b []).getD s 0).toNat
  votes := fun b => ((race.votes.getD b 0 : ℤ) : ℚ)
  total := (race.votes.map (fun v : ℤ => (v : ℚ))).sum
  vn := votesNeeded ((race.votes.map (fun v : ℤ => (v : ℚ))).sum) race.metadata.num_winners mode

/-- The initial round state of `run_rcv` (lines 88-116): full weight on each
ballot's first slot, every ballot position valid, every candidate undecided with
slot `0` permanently excluded, and each pointer at the first valid position. -/
def initSt (ctx : Ctx) : St where
  status := fun c => if c = 0 then -2 else 0
  valid := fun _ _ => true
  weights := fun _ s => if s = 0 then 1 else 0
  orig := fun _ => firstValid ctx.S fun _ => true

/-- `run_rcv` (lines 48-207).  The tie-break source and the loop fuel
(`names.length` rounds, shown sufficient on valid input) are explicit. -/
def run_rcv (race : RaceData) (mode : RoundMode := .ADD_ONE_FLOOR)
    (pick : List ℕ → ℕ) : Except RcvError RaceResult :=
  exBind (validate_and_standardize_ballots race.ballots race.metadata.names.length) fun M =>
    exBind (runLoop pick (mkCtx race mode M) race.metadata.names.length
      (initSt (mkCtx race mode M))) fun rounds =>
      .ok ⟨race.metadata, rounds⟩

/-- The one guarantee of `np.random.choice`: it returns a member of its
(non-empty) argument. -/
def PickMem (pick : List ℕ → ℕ) : Prop := ∀ l : List ℕ, l ≠ [] → pick l ∈ l

/-- A concrete deterministic tie-break. -/
def pickHead (l : List ℕ) : ℕ := l.headD 0

theorem pickHead_mem : PickMem pickHead := by
  intro l hl
  cases l with
  | nil => exact absurd rfl hl
  | cons a t => simp [pickHead]

/-! ### Finite-sum toolbox -/

theorem sumR_congr {n : ℕ} {f g : ℕ → ℚ} (h : ∀ i < n, f i = g i) : sumR n f = sumR n g :=
  Finset.sum_congr rfl fun i hi => h i (Finset.mem_range.mp hi)

theorem sumR_succ (n : ℕ) (f : ℕ → ℚ) : sumR (n + 1) f = sumR n f + f n :=
  Finset.sum_range_succ f n

theorem sumR_shift (n : ℕ) (f : ℕ → ℚ) : sumR (n + 1) f = (sumR n fun i => f (i + 1)) + f 0 :=
  Finset.sum_range_succ' f n

theorem sumR_swap (m n : ℕ) (f : ℕ → ℕ → ℚ) :
    (sumR m fun i => sumR n (f i)) = sumR n fun j => sumR m fun i => f i j :=
  Finset.sum_comm

theorem sumR_eq_single {n i : ℕ} (f : ℕ → ℚ) (hi : i < n) (h : ∀ j < n, j ≠ i → f j = 0) :
    sumR n f = f i :=
  Finset.sum_eq_single_of_mem i (Finset.mem_range.mpr hi)
    fun j hj hne => h j (Finset.mem_range.mp hj) hne

theorem sumR_ite (n k : ℕ) (x : ℚ) (hk : k < n) :
    (sumR n fun c => if k = c then x else 0) = x := by
  rw [sumR_eq_single _ hk]
  · simp
  · intro j _ hne
    simp [Ne.symm hne]

theorem sumR_le {n : ℕ} {f g : ℕ → ℚ} (h : ∀ i < n, f i ≤ g i) : sumR n f ≤ sumR n g :=
  Finset.sum_le_sum fun i hi => h i (Finset.mem_range.mp hi)

theorem sumR_nonneg {n : ℕ} {f : ℕ → ℚ} (h : ∀ i < n, 0 ≤ f i) : 0 ≤ sumR n f :=
  Finset.sum_nonneg fun i hi => h i (Finset.mem_range.mp hi)

theorem sumR_update_two {n a b : ℕ} {f g : ℕ → ℚ} (hab : a ≠ b) (ha : a < n) (hb : b < n)
    (h : ∀ s < n, s ≠ a → s ≠ b → g s = f s) :
    sumR n g = sumR n f - f a - f b + g a + g b := by
  have hsub : sumR n g - sumR n f = sumR n fun s => g s - f s := by
    simp only [sumR]
    exact (Finset.sum_sub_distrib (s := Finset.range n) (f := g) (g := f)).symm
  have htwo : (sumR n fun s => g s - f s) = (g a - f a) + (g b - f b) := by
    refine Finset.sum_eq_add_of_mem a b (Finset.mem_range.mpr ha) (Finset.mem_range.mpr hb) hab ?_
    intro c hc hne
    rw [h c (Finset.mem_range.mp hc) hne.1 hne.2]
    ring
  have := hsub.trans htwo
  linarith

theorem list_range_map_sum (n : ℕ) (f : ℕ → ℚ) : ((List.range n).map f).sum = sumR n f := by
  induction n with
  | zero => simp [sumR]
  | succ n ih => rw [List.range_succ]; simp [sumR_succ, ih]

/-! ### Counting and index-listing toolbox -/

theorem mem_idxWhere {n : ℕ} {p : ℕ → Bool} {c : ℕ} :
    c ∈ idxWhere n p ↔ c < n ∧ p c = true := by
  simp [idxWhere, List.mem_filter, List.mem_range, and_comm]

theorem idxWhere_nodup (n : ℕ) (p : ℕ → Bool) : (idxWhere n p).Nodup :=
  (List.nodup_range n).filter p

theorem idxWhere_eq_nil {n : ℕ} {p : ℕ → Bool} :
    idxWhere n p = [] ↔ ∀ c < n, p c = false := by
  simp [idxWhere, List.filter_eq_nil_iff, List.mem_range]

theorem idxWhere_succ (n : ℕ) (p : ℕ → Bool) :
    idxWhere (n + 1) p = idxWhere n p ++ if p n then [n] else [] := by
  rw [idxWhere, List.range_succ, List.filter_append]
  cases hp : p n <;> simp [idxWhere, hp]

theorem cnt_succ (n : ℕ) (p : ℕ → Bool) :
    cnt (n + 1) p = cnt n p + (if p n then 1 else 0) := by
  rw [cnt, idxWhere_succ, List.length_append]
  cases hp : p n <;> simp [cnt, hp]

theorem cnt_congr {n : ℕ} {p q : ℕ → Bool} (h : ∀ c < n, p c = q c) : cnt n p = cnt n q := by
  induction n with
  | zero => rfl
  | succ n ih =>
    rw [cnt_succ, cnt_succ, ih fun c hc => h c (Nat.lt_succ_of_lt hc), h n (Nat.lt_succ_self n)]

theorem cnt_false (n : ℕ) : cnt n (fun _ => false) = 0 := by
  induction n with
  | zero => rfl
  | succ n ih => rw [cnt_succ]; simp [ih]

theorem cnt_or {n : ℕ} {p q : ℕ → Bool} (h : ∀ c < n, ¬(p c = true ∧ q c = true)) :
    cnt n (fun c => p c || q c) = cnt n p + cnt n q := by
  induction n with
  | zero => rfl
  | succ n ih =>
    rw [cnt_succ, cnt_succ, cnt_succ, ih fun c hc => h c (Nat.lt_succ_of_lt hc)]
    have := h n (Nat.lt_succ_self n)
    cases hp : p n <;> cases hq : q n <;> simp [hp, hq] at this ⊢ <;> omega

theorem cnt_single {n e : ℕ} (he : e < n) : cnt n (fun c => decide (c = e)) = 1 := by
  induction n with
  | zero => omega
  | succ n ih =>
    rw [cnt_succ]
    rcases Nat.lt_succ_iff_lt_or_eq.mp he with h | h
    · have : ¬(n = e) := by omega
      simp [this, ih h]
    · subst h
      have : cnt e (fun c => decide (c = e)) = cnt e fun _ => false :=
        cnt_congr fun c hc => by simp; omega
      simp [this, cnt_false]

theorem cnt_le (n : ℕ) (p : ℕ → Bool) : cnt n p ≤ n := by
  induction n with
  | zero => exact Nat.le_refl 0
  | succ n ih => rw [cnt_succ]; cases hp : p n <;> simp <;> omega

/-! ### First-valid-index toolbox -/

theorem fvAux_cases (v : ℕ → Bool) (k i : ℕ) :
    (fvAux v i k = -1 ∧ ∀ j, i ≤ j → j < i + k → v j = false) ∨
    (∃ m : ℕ, fvAux v i k = (m : ℤ) ∧ i ≤ m ∧ m < i + k ∧ v m = true ∧
      ∀ j, i ≤ j → j < m → v j = false) := by
  induction k generalizing i with
  | zero => exact Or.inl ⟨rfl, fun j h1 h2 => absurd h2 (by omega)⟩
  | succ k ih =>
    by_cases hv : v i = true
    · exact Or.inr ⟨i, by simp [fvAux, hv], Nat.le_refl i, by omega, hv,
        fun j h1 h2 => absurd h2 (by omega)⟩
    · have hvf : v i = false := by simp at hv; exact hv
      rcases ih (i + 1) with ⟨h1, h2⟩ | ⟨m, h1, h2, h3, h4, h5⟩
      · refine Or.inl ⟨by simp [fvAux, hvf, h1], fun j hj1 hj2 => ?_⟩
        rcases Nat.eq_or_lt_of_le hj1 with h | h
        · exact h ▸ hvf
        · exact h2 j (by omega) (by omega)
      · refine Or.inr ⟨m, by simp [fvAux, hvf, h1], by omega, by omega, h4, fun j hj1 hj2 => ?_⟩
        rcases Nat.eq_or_lt_of_le hj1 with h | h
        · exact h ▸ hvf
        · exact h5 j (by omega) hj2

theorem firstValid_cases (S : ℕ) (v : ℕ → Bool) :
    (firstValid S v = -1 ∧ ∀ j < S, v j = false) ∨
    (∃ m : ℕ, firstValid S v = (m : ℤ) ∧ m < S ∧ v m = true ∧ ∀ j < m, v j = false) := by
  rcases fvAux_cases v S 0 with ⟨h1, h2⟩ | ⟨m, h1, _, h3, h4, h5⟩
  · exact Or.inl ⟨h1, fun j hj => h2 j (Nat.zero_le j) (by omega)⟩
  · exact Or.inr ⟨m, h1, by omega, h4, fun j hj => h5 j (Nat.zero_le j) hj⟩

theorem firstValid_found {S : ℕ} {v : ℕ → Bool} (s : ℕ) (hs : s < S) (hv : v s = true) :
    ∃ m : ℕ, firstValid S v = (m : ℤ) ∧ m < S ∧ v m = true ∧ ∀ j < m, v j = false := by
  rcases firstValid_cases S v with ⟨_, h2⟩ | h
  · exact absurd hv (by simp [h2 s hs])
  · exact h

theorem firstValid_eq {S : ℕ} {v : ℕ → Bool} (m : ℕ) (hm : m < S) (hv : v m = true)
    (hp : ∀ j < m, v j = false) : firstValid S v = (m : ℤ) := by
  rcases firstValid_cases S v with ⟨_, h2⟩ | ⟨m', h1, h2, h3, h4⟩
  · exact absurd hv (by simp [h2 m hm])
  · rcases Nat.lt_trichotomy m' m with h | h | h
    · exact absurd h3 (by simp [hp m' h])
    · subst h; exact h1
    · exact absurd hv (by simp [h4 m h])

theorem firstValid_all_true {S : ℕ} (hS : 0 < S) : firstValid S (fun _ => true) = 0 :=
  firstValid_eq 0 hS rfl fun j hj => absurd hj (Nat.not_lt_zero j)

/-! ### Minimum-over-a-list toolbox -/

theorem foldlMin_le_init (counts : ℕ → ℚ) (l : List ℕ) (a : ℚ) :
    l.foldl (fun m c => min m (counts c)) a ≤ a := by
  induction l generalizing a with
  | nil => exact le_refl a
  | cons x t ih => exact le_trans (ih _) (min_le_left _ _)

theorem foldlMin_le_mem (counts : ℕ → ℚ) (l : List ℕ) (a : ℚ) (c : ℕ) (hc : c ∈ l) :
    l.foldl (fun m c => min m (counts c)) a ≤ counts c := by
  induction l generalizing a with
  | nil => exact absurd hc (List.not_mem_nil c)
  | cons x t ih =>
    rcases List.mem_cons.mp hc with h | h
    · subst h
      exact le_trans (foldlMin_le_init counts t _) (min_le_right _ _)
    · exact ih _ h

theorem foldlMin_mem (counts : ℕ → ℚ) (l : List ℕ) (a : ℚ) :
    l.foldl (fun m c => min m (counts c)) a = a ∨
    ∃ c ∈ l, l.foldl (fun m c => min m (counts c)) a = counts c := by
  induction l generalizing a with
  | nil => exact Or.inl rfl
  | cons x t ih =>
    rcases ih (min a (counts x)) with h | ⟨c, hc, h⟩
    · rcases min_cases a (counts x) with ⟨he, _⟩ | ⟨he, _⟩
      · exact Or.inl (by rw [List.foldl_cons, h, he])
      · exact Or.inr ⟨x, List.mem_cons_self x t, by rw [List.foldl_cons, h, he]⟩
    · exact Or.inr ⟨c, List.mem_cons_of_mem x hc, by rw [List.foldl_cons, h]⟩

theorem minOver_le (counts : ℕ → ℚ) (l : List ℕ) (c : ℕ) (hc : c ∈ l) :
    minOver counts l ≤ counts c := by
  cases l with
  | nil => exact absurd hc (List.not_mem_nil c)
  | cons a t =>
    rcases List.mem_cons.mp hc with h | h
    · subst h; exact foldlMin_le_init counts t _
    · exact foldlMin_le_mem counts t _ c h

theorem minOver_mem (counts : ℕ → ℚ) (l : List ℕ) (hl : l ≠ []) :
    ∃ c ∈ l, minOver counts l = counts c := by
  cases l with
  | nil => exact absurd rfl hl
  | cons a t =>
    rcases foldlMin_mem counts t (counts a) with h | ⟨c, hc, h⟩
    · exact ⟨a, List.mem_cons_self a t, h⟩
    · exact ⟨c, List.mem_cons_of_mem a hc, h⟩

/-! ### The structural loop invariant -/

/-- The structural invariant maintained by the round loop: the ballot matrix is
rectangular with in-range entries and a sentinel last column, the recorded total
agrees with the per-ballot votes, slot `0` is never in the running, every
ballot's last position stays valid, each pointer is the first valid position of
its ballot, all weight of a ballot lives at or before its pointer, and each
ballot's weights sum to `1`. -/
structure InvC (ctx : Ctx) (st : St) : Prop where
  hS : 0 < ctx.S
  hNS : 0 < ctx.numSlots
  balB : ∀ b < ctx.B, ∀ s < ctx.S, ctx.bal b s < ctx.numSlots
  balLast : ∀ b < ctx.B, ctx.bal b (ctx.S - 1) = 0
  htot : sumR ctx.B ctx.votes = ctx.total
  st0 : st.status 0 < 0
  vLast : ∀ b < ctx.B, st.valid b (ctx.S - 1) = true
  oFV : ∀ b < ctx.B, st.orig b = firstValid ctx.S (st.valid b)
  wSupp : ∀ b < ctx.B, ∀ s < ctx.S, st.orig b < (s : ℤ) → st.weights b s = 0
  wSum : ∀ b < ctx.B, sumR ctx.S (st.weights b) = 1

/-- The sign extension of the invariant: non-negative votes, threshold, weights. -/
structure InvN (ctx : Ctx) (st : St) extends InvC ctx st : Prop where
  vNN : ∀ b, 0 ≤ ctx.votes b
  vnNN : 0 ≤ ctx.vn
  wNN : ∀ b < ctx.B, ∀ s < ctx.S, 0 ≤ st.weights b s

theorem isclose_self (a : ℚ) : isclose a a = true := by
  simp only [isclose, decide_eq_true_eq, sub_self, abs_zero]
  positivity

/-- The recorded count vector of a round sums to the sum of the votes: the
`bincount` over all ballot positions regroups the weighted ballot masses, and
each ballot's weights sum to `1`. -/
theorem countsList_sum (ctx : Ctx) (w : ℕ → ℕ → ℚ)
    (hbal : ∀ b < ctx.B, ∀ s < ctx.S, ctx.bal b s < ctx.numSlots)
    (hrow : ∀ b < ctx.B, sumR ctx.S (w b) = 1) :
    (countsList ctx w).sum = sumR ctx.B ctx.votes := by
  rw [countsList, list_range_map_sum]
  have h1 : (sumR ctx.numSlots fun c => tallyAt ctx w c)
      = sumR ctx.B fun b => sumR ctx.S fun s => w b s * ctx.votes b := by
    unfold tallyAt
    rw [sumR_swap]
    refine sumR_congr fun b hb => ?_
    rw [sumR_swap]
    refine sumR_congr fun s hs => ?_
    exact sumR_ite _ _ _ (hbal b hb s hs)
  rw [h1]
  refine sumR_congr fun b hb => ?_
  have h2 : (sumR ctx.S fun s => w b s * ctx.votes b) = sumR ctx.S (w b) * ctx.votes b := by
    rw [sumR, sumR, Finset.sum_mul]
  rw [h2, hrow b hb, one_mul]

/-- Per-ballot dichotomy of one transfer iteration: either the ballot's pointer
does not move and its weights are untouched, or the pointer pointed at the
removed candidate and moves strictly forward, the weight there splitting into a
retained share `mult` and a share `1 - mult` at the new pointer position. -/
theorem dt_row (ctx : Ctx) (st : St) (cand : ℕ) (mult : ℚ) (inv : InvC ctx st)
    (hcand : 1 ≤ cand) {b : ℕ} (hb : b < ctx.B) :
    ∃ m : ℕ, st.orig b = (m : ℤ) ∧ m < ctx.S ∧
      ((dtNext ctx st cand b = st.orig b ∧
        ∀ s, dtWeights ctx st cand mult b s = st.weights b s) ∨
       (ctx.bal b m = cand ∧
        ∃ m' : ℕ, dtNext ctx st cand b = (m' : ℤ) ∧ m < m' ∧ m' < ctx.S ∧
          dtWeights ctx st cand mult b m' = st.weights b m * (1 - mult) ∧
          dtWeights ctx st cand mult b m = st.weights b m * mult ∧
          ∀ s : ℕ, s ≠ m → s ≠ m' → dtWeights ctx st cand mult b s = st.weights b s)) := by
  have hS := inv.hS
  obtain ⟨m, hfv, hmS, hvm, hpref⟩ :=
    firstValid_found (S := ctx.S) (v := st.valid b) (ctx.S - 1) (by omega) (inv.vLast b hb)
  have hm : st.orig b = (m : ℤ) := (inv.oFV b hb).trans hfv
  refine ⟨m, hm, hmS, ?_⟩
  by_cases hbc : ctx.bal b m = cand
  · -- the pointer position is invalidated and moves strictly forward
    have hvm' : dtValid ctx st cand b m = false := by
      simp [dtValid, hbc]
    have hpref' : ∀ j < m, dtValid ctx st cand b j = false := fun j hj => by
      simp [dtValid, hpref j hj]
    have hlast' : dtValid ctx st cand b (ctx.S - 1) = true := by
      have hbl := inv.balLast b hb
      have : ¬(ctx.bal b (ctx.S - 1) = cand) := by omega
      simp [dtValid, inv.vLast b hb, this]
    obtain ⟨m', hfv', hm'S, hvm'', hpref''⟩ :=
      firstValid_found (S := ctx.S) (v := dtValid ctx st cand b) (ctx.S - 1) (by omega) hlast'
    have hne : m' ≠ m := fun h => by rw [h] at hvm''; simp [hvm'] at hvm''
    have hmm' : m < m' := by
      rcases Nat.lt_or_ge m m' with h | h
      · exact h
      · rcases Nat.eq_or_lt_of_le h with h' | h'
        · exact absurd h' hne
        · exfalso
          have h1 : st.valid b m' = false := hpref m' h'
          have h2 : dtValid ctx st cand b m' = false := by simp [dtValid, h1]
          rw [h2] at hvm''
          exact Bool.false_ne_true hvm''
    have hnext : dtNext ctx st cand b = (m' : ℤ) := hfv'
    have horne : st.orig b ≠ dtNext ctx st cand b := by
      rw [hm, hnext]
      exact_mod_cast fun h => hne (by exact_mod_cast h.symm)
    have hn1 : dtNext ctx st cand b ≠ -1 := by rw [hnext]; omega
    refine Or.inr ⟨hbc, m', hnext, hmm', hm'S, ?_, ?_, ?_⟩
    · show dtWeights ctx st cand mult b m' = _
      rw [dtWeights, if_pos ⟨⟨horne, hn1⟩, by rw [hnext]⟩, hm]
      simp
    · show dtWeights ctx st cand mult b m = _
      have hc1 : ¬(((st.orig b ≠ dtNext ctx st cand b ∧ dtNext ctx st cand b ≠ -1) ∧
          ((m : ℕ) : ℤ) = dtNext ctx st cand b)) := by
        rintro ⟨-, h⟩
        rw [hnext] at h
        exact hne (by exact_mod_cast h.symm)
      rw [dtWeights, if_neg hc1, if_pos ⟨horne, by rw [hm]⟩]
    · intro s hsm hsm'
      have hc1 : ¬(((st.orig b ≠ dtNext ctx st cand b ∧ dtNext ctx st cand b ≠ -1) ∧
          ((s : ℕ) : ℤ) = dtNext ctx st cand b)) := by
        rintro ⟨-, h⟩
        rw [hnext] at h
        exact hsm' (by exact_mod_cast h)
      have hc2 : ¬((st.orig b ≠ dtNext ctx st cand b ∧ ((s : ℕ) : ℤ) = st.orig b)) := by
        rintro ⟨-, h⟩
        rw [hm] at h
        exact hsm (by exact_mod_cast h)
      rw [dtWeights, if_neg hc1, if_neg hc2]
  · -- the pointer position stays valid: nothing changes on this ballot
    have hvm' : dtValid ctx st cand b m = true := by
      simp [dtValid, hvm, hbc]
    have hpref' : ∀ j < m, dtValid ctx st cand b j = false := fun j hj => by
      simp [dtValid, hpref j hj]
    have hnext : dtNext ctx st cand b = (m : ℤ) := firstValid_eq m hmS hvm' hpref'
    have heq : dtNext ctx st cand b = st.orig b := by rw [hnext, hm]
    refine Or.inl ⟨heq, fun s => ?_⟩
    rw [dtWeights, if_neg (by rintro ⟨⟨h, -⟩, -⟩; exact h heq.symm),
      if_neg (by rintro ⟨h, -⟩; exact h heq.symm)]

/-- One transfer iteration for a real candidate preserves the structural
invariant. -/
theorem dt_invC {ctx : Ctx} {st : St} {cand : ℕ} {mult : ℚ} (inv : InvC ctx st)
    (hcand : 1 ≤ cand) : InvC ctx (doTransfer ctx st cand mult).2 := by
  refine ⟨inv.hS, inv.hNS, inv.balB, inv.balLast, inv.htot, inv.st0, ?_, ?_, ?_, ?_⟩
  · intro b hb
    have hbl := inv.balLast b hb
    have hne : ¬(ctx.bal b (ctx.S - 1) = cand) := by omega
    show dtValid ctx st cand b (ctx.S - 1) = true
    simp [dtValid, inv.vLast b hb, hne]
  · intro b hb
    rfl
  · intro b hb s hs hgt
    obtain ⟨m, hm, hmS, hA | hB⟩ := dt_row ctx st cand mult inv hcand hb
    · show dtWeights ctx st cand mult b s = 0
      rw [hA.2 s]
      refine inv.wSupp b hb s hs ?_
      have : (doTransfer ctx st cand mult).2.orig b = dtNext ctx st cand b := rfl
      rw [this, hA.1] at hgt
      exact hgt
    · obtain ⟨hbal, m', hnext, hmm', hm'S, hw1, hw2, hw3⟩ := hB
      have hgt' : (m' : ℤ) < (s : ℤ) := by
        have h0 : (doTransfer ctx st cand mult).2.orig b = dtNext ctx st cand b := rfl
        rw [h0, hnext] at hgt
        exact hgt
      have hm's : m' < s := by exact_mod_cast hgt'
      show dtWeights ctx st cand mult b s = 0
      rw [hw3 s (by omega) (by omega)]
      refine inv.wSupp b hb s hs ?_
      rw [hm]
      exact_mod_cast by omega
  · intro b hb
    obtain ⟨m, hm, hmS, hA | hB⟩ := dt_row ctx st cand mult inv hcand hb
    · show sumR ctx.S (dtWeights ctx st cand mult b) = 1
      rw [sumR_congr fun s _ => hA.2 s]
      exact inv.wSum b hb
    · obtain ⟨hbal, m', hnext, hmm', hm'S, hw1, hw2, hw3⟩ := hB
      show sumR ctx.S (dtWeights ctx st cand mult b) = 1
      have hupd := sumR_update_two (n := ctx.S) (a := m) (b := m')
        (f := st.weights b) (g := dtWeights ctx st cand mult b)
        (by omega) hmS hm'S (fun s _ hsm hsm' => hw3 s hsm hsm')
      have hfm' : st.weights b m' = 0 := by
        refine inv.wSupp b hb m' hm'S ?_
        rw [hm]
        exact_mod_cast hmm'
      rw [hupd, inv.wSum b hb, hfm', hw1, hw2]
      ring

theorem dt_weights_eq (ctx : Ctx) (st : St) (cand : ℕ) (mult : ℚ) :
    (doTransfer ctx st cand mult).2.weights = dtWeights ctx st cand mult := rfl

theorem dt_status_eq (ctx : Ctx) (st : St) (cand : ℕ) (mult : ℚ) :
    (doTransfer ctx st cand mult).2.status = st.status := rfl

/-- One transfer iteration with a retain multiplier in `[0, 1]` preserves the
sign invariant. -/
theorem dt_invN {ctx : Ctx} {st : St} {cand : ℕ} {mult : ℚ} (inv : InvN ctx st)
    (hcand : 1 ≤ cand) (hm0 : 0 ≤ mult) (hm1 : mult ≤ 1) :
    InvN ctx (doTransfer ctx st cand mult).2 := by
  refine ⟨dt_invC inv.toInvC hcand, inv.vNN, inv.vnNN, ?_⟩
  intro b hb s hs
  rw [dt_weights_eq]
  obtain ⟨m, hm, hmS, hA | hB⟩ := dt_row ctx st cand mult inv.toInvC hcand hb
  · rw [hA.2 s]
    exact inv.wNN b hb s hs
  · obtain ⟨hbal, m', hnext, hmm', hm'S, hw1, hw2, hw3⟩ := hB
    by_cases h1 : s = m'
    · subst h1
      rw [hw1]
      exact mul_nonneg (inv.wNN b hb m hmS) (by linarith)
    · by_cases h2 : s = m
      · subst h2
        rw [hw2]
        exact mul_nonneg (inv.wNN b hb s hs) hm0
      · rw [hw3 s h2 h1]
        exact inv.wNN b hb s hs

/-- One transfer iteration never decreases the exhausted mass (the tally at the
sentinel slot `0`): weight written onto a blank position was previously zero
there, and weight is only rescaled at the removed candidate's own positions. -/
theorem dt_exh {ctx : Ctx} {st : St} {cand : ℕ} {mult : ℚ} (inv : InvN ctx st)
    (hcand : 1 ≤ cand) (hm0 : 0 ≤ mult) (hm1 : mult ≤ 1) :
    tallyAt ctx st.weights 0 ≤ tallyAt ctx (doTransfer ctx st cand mult).2.weights 0 := by
  rw [dt_weights_eq]
  unfold tallyAt
  refine sumR_le fun b hb => ?_
  refine sumR_le fun s hs => ?_
  obtain ⟨m, hm, hmS, hA | hB⟩ := dt_row ctx st cand mult inv.toInvC hcand hb
  · rw [hA.2 s]
  · obtain ⟨hbal, m', hnext, hmm', hm'S, hw1, hw2, hw3⟩ := hB
    by_cases h1 : s = m'
    · subst h1
      by_cases h0 : ctx.bal b s = 0
      · rw [if_pos h0, if_pos h0, hw1]
        have hz : st.weights b s = 0 := by
          refine inv.wSupp b hb s hs ?_
          rw [hm]
          exact_mod_cast hmm'
        rw [hz, zero_mul]
        exact mul_nonneg (mul_nonneg (inv.wNN b hb m hmS) (by linarith)) (inv.vNN b)
      · rw [if_neg h0, if_neg h0]
    · by_cases h2 : s = m
      · subst h2
        have h0 : ¬(ctx.bal b s = 0) := by omega
        rw [if_neg h0, if_neg h0]
      · rw [hw3 s h2 h1]

/-- The state thread of the transfer loop. -/
def stFold (ctx : Ctx) (removals : List (ℕ × ℚ)) (st : St) : St :=
  removals.foldl (fun st cm => (doTransfer ctx st cm.1 cm.2).2) st

theorem applyRemovals_snd (ctx : Ctx) (removals : List (ℕ × ℚ)) :
    ∀ p : List (ℕ × List (ℕ × ℚ)) × St,
      (applyRemovals ctx removals p).2 = stFold ctx removals p.2 := by
  induction removals with
  | nil => intro p; rfl
  | cons cm t ih =>
    intro p
    rw [applyRemovals, List.foldl_cons, stFold, List.foldl_cons]
    exact ih _

theorem stFold_status (ctx : Ctx) (removals : List (ℕ × ℚ)) :
    ∀ st : St, (stFold ctx removals st).status = st.status := by
  induction removals with
  | nil => intro st; rfl
  | cons cm t ih =>
    intro st
    rw [stFold, List.foldl_cons]
    exact (ih _).trans (dt_status_eq ctx st cm.1 cm.2)

theorem stFold_invC {ctx : Ctx} {removals : List (ℕ × ℚ)} :
    ∀ st : St, InvC ctx st → (∀ cm ∈ removals, 1 ≤ cm.1) →
      InvC ctx (stFold ctx removals st) := by
  induction removals with
  | nil => intro st inv _; exact inv
  | cons cm t ih =>
    intro st inv hrm
    rw [stFold, List.foldl_cons]
    exact ih _ (dt_invC inv (hrm cm (List.mem_cons_self cm t)))
      fun x hx => hrm x (List.mem_cons_of_mem cm hx)

theorem stFold_invN {ctx : Ctx} {removals : List (ℕ × ℚ)} :
    ∀ st : St, InvN ctx st → (∀ cm ∈ removals, 1 ≤ cm.1) →
      (∀ cm ∈ removals, 0 ≤ cm.2 ∧ cm.2 ≤ 1) → InvN ctx (stFold ctx removals st) := by
  induction removals with
  | nil => intro st inv _ _; exact inv
  | cons cm t ih =>
    intro st inv hrm hmm
    rw [stFold, List.foldl_cons]
    have h1 := hrm cm (List.mem_cons_self cm t)
    have h2 := hmm cm (List.mem_cons_self cm t)
    exact ih _ (dt_invN inv h1 h2.1 h2.2)
      (fun x hx => hrm x (List.mem_cons_of_mem cm hx))
      fun x hx => hmm x (List.mem_cons_of_mem cm hx)

theorem stFold_exh {ctx : Ctx} {removals : List (ℕ × ℚ)} :
    ∀ st : St, InvN ctx st → (∀ cm ∈ removals, 1 ≤ cm.1) →
      (∀ cm ∈ removals, 0 ≤ cm.2 ∧ cm.2 ≤ 1) →
      tallyAt ctx st.weights 0 ≤ tallyAt ctx (stFold ctx removals st).weights 0 := by
  induction removals with
  | nil => intro st _ _ _; exact le_refl _
  | cons cm t ih =>
    intro st inv hrm hmm
    rw [stFold, List.foldl_cons]
    have h1 := hrm cm (List.mem_cons_self cm t)
    have h2 := hmm cm (List.mem_cons_self cm t)
    refine le_trans (dt_exh inv h1 h2.1 h2.2) ?_
    exact ih _ (dt_invN inv h1 h2.1 h2.2)
      (fun x hx => hrm x (List.mem_cons_of_mem cm hx))
      fun x hx => hmm x (List.mem_cons_of_mem cm hx)


/-! ### The initial state -/

theorem maxLen_cons (x : List ℤ) (t : List (List ℤ)) :
    maxLen (x :: t) = max x.length (maxLen t) := rfl

theorem maxLen_ge (ballots : List (List ℤ)) : ∀ r ∈ ballots, r.length ≤ maxLen ballots := by
  induction ballots with
  | nil => intro r hr; exact absurd hr (List.not_mem_nil r)
  | cons x t ih =>
    intro r hr
    rw [maxLen_cons]
    rcases List.mem_cons.mp hr with h | h
    · subst h; exact Nat.le_max_left _ _
    · exact le_trans (ih r h) (Nat.le_max_right _ _)

theorem padTo_length {r : List ℤ} {L : ℕ} (h : r.length ≤ L) : (padTo r L).length = L := by
  rw [padTo, List.length_append, List.length_replicate]
  omega

/-- Inversion of a successful validation: every row was padded to the positive
maximum length, cast to `int8`, bounds-checked, and extended by a `0`. -/
theorem validate_ok_inv {ballots : List (List ℤ)} {numCands : ℕ} {M : List (List ℤ)}
    (h : validate_and_standardize_ballots ballots numCands = .ok M) :
    M = (ballots.map fun r => (padTo r (maxLen ballots)).map toInt8).map (fun r => r ++ [0]) ∧
    0 < maxLen ballots ∧
    check_oob (ballots.map fun r => (padTo r (maxLen ballots)).map toInt8) numCands = [] := by
  rw [validate_and_standardize_ballots] at h
  split at h
  · exact absurd h (by simp)
  · split at h
    · exact absurd h (by simp)
    · split at h
      · exact absurd h (by simp)
      · rename_i h1 h2 _ _
        simp only [Except.ok.injEq] at h
        refine ⟨h.symm, by omega, by simpa using h2⟩

/-- The entries of a successfully validated ballot matrix are in range, and the
appended final column is the sentinel `0`. -/
theorem validate_entries {ballots : List (List ℤ)} {numCands : ℕ} {M : List (List ℤ)}
    (h : validate_and_standardize_ballots ballots numCands = .ok M) :
    M.length = ballots.length ∧
    ∀ b < M.length,
      (M.getD b []).length = maxLen ballots + 1 ∧
      (∀ s < maxLen ballots + 1,
        0 ≤ (M.getD b []).getD s 0 ∧ (M.getD b []).getD s 0 ≤ (numCands : ℤ)) ∧
      (M.getD b []).getD (maxLen ballots) 0 = 0 := by
  obtain ⟨hM, hL, hoob⟩ := validate_ok_inv h
  have hlen : M.length = ballots.length := by
    rw [hM, List.length_map, List.length_map]
  refine ⟨hlen, fun b hb => ?_⟩
  have hb' : b < ballots.length := by omega
  have hb0 : b < (ballots.map fun r => (padTo r (maxLen ballots)).map toInt8).length := by
    rw [List.length_map]; exact hb'
  have hrow : M.getD b []
      = ((ballots.map fun r => (padTo r (maxLen ballots)).map toInt8).getD b []) ++ [0] := by
    rw [hM, List.getD_eq_getElem _ _ (by rw [List.length_map]; exact hb0),
      List.getElem_map, List.getD_eq_getElem _ _ hb0]
  have hrow0 : (ballots.map fun r => (padTo r (maxLen ballots)).map toInt8).getD b []
      = (padTo (ballots.getD b []) (maxLen ballots)).map toInt8 := by
    rw [List.getD_eq_getElem _ _ hb0, List.getElem_map,
      List.getD_eq_getElem _ _ hb']
  have hlen0 : ((padTo (ballots.getD b []) (maxLen ballots)).map toInt8).length
      = maxLen ballots := by
    rw [List.length_map]
    exact padTo_length (maxLen_ge ballots _ (by
      rw [List.getD_eq_getElem _ _ hb']
      exact List.getElem_mem _))
  have hok : rowOOB ((ballots.map fun r => (padTo r (maxLen ballots)).map toInt8).getD b [])
      numCands = false := by
    have := idxWhere_eq_nil.mp hoob b (by rw [List.length_map]; exact hb')
    exact this
  refine ⟨?_, ?_, ?_⟩
  · rw [hrow, List.length_append, hrow0, hlen0]
    simp
  · intro s hs
    by_cases hsL : s < maxLen ballots
    · have hsrow : s < ((ballots.map fun r =>
          (padTo r (maxLen ballots)).map toInt8).getD b []).length := by
        rw [hrow0, hlen0]
        exact hsL
      rw [hrow, List.getD_append _ _ _ _ hsrow]
      have hmem : ((ballots.map fun r => (padTo r (maxLen ballots)).map toInt8).getD b []).getD s 0
          ∈ (ballots.map fun r => (padTo r (maxLen ballots)).map toInt8).getD b [] := by
        rw [List.getD_eq_getElem _ _ hsrow]
        exact List.getElem_mem _
      have hany := List.any_eq_false.mp hok _ hmem
      simp only [Bool.or_eq_true, decide_eq_true_eq, not_or, not_lt] at hany
      exact ⟨hany.1, hany.2⟩
    · have hsL' : s = maxLen ballots := by omega
      subst hsL'
      rw [hrow, List.getD_append_right _ _ _ _ (by rw [hrow0, hlen0])]
      rw [hrow0, hlen0]
      simp
  · rw [hrow, List.getD_append_right _ _ _ _ (by rw [hrow0, hlen0])]
    rw [hrow0, hlen0]
    simp

theorem sumR_getD (l : List ℤ) :
    sumR l.length (fun b => ((l.getD b 0 : ℤ) : ℚ)) = (l.map fun v : ℤ => (v : ℚ)).sum := by
  induction l with
  | nil => simp [sumR]
  | cons x t ih =>
    rw [List.length_cons, sumR_shift]
    rw [show (fun i => (((x :: t).getD (i + 1) 0 : ℤ) : ℚ)) = fun i => ((t.getD i 0 : ℤ) : ℚ)
      from funext fun i => by rw [List.getD_cons_succ]]
    rw [ih, List.map_cons, List.sum_cons, List.getD_cons_zero]
    ring

/-- The initial tabulator state satisfies the structural invariant. -/
theorem init_invC {race : RaceData} {mode : RoundMode} {M : List (List ℤ)}
    (hval : validate_and_standardize_ballots race.ballots race.metadata.names.length = .ok M)
    (hlen : race.votes.length = race.ballots.length) :
    InvC (mkCtx race mode M) (initSt (mkCtx race mode M)) := by
  obtain ⟨hMlen, hrows⟩ := validate_entries hval
  obtain ⟨-, hL, -⟩ := validate_ok_inv hval
  have hS : 0 < (mkCtx race mode M).S := by
    show 0 < maxLen race.ballots + 1
    omega
  have horig : ∀ b : ℕ, (initSt (mkCtx race mode M)).orig b = 0 := fun b =>
    firstValid_all_true hS
  refine ⟨hS, Nat.succ_pos _, ?_, ?_, ?_, by simp [initSt], fun b _ => rfl, fun b _ => rfl, ?_, ?_⟩
  · intro b hb s hs
    show ((M.getD b []).getD s 0).toNat < race.metadata.names.length + 1
    have hb' : b < M.length := hb
    have := (hrows b hb').2.1 s hs
    omega
  · intro b hb
    show ((M.getD b []).getD ((mkCtx race mode M).S - 1) 0).toNat = 0
    have hb' : b < M.length := hb
    have h0 := (hrows b hb').2.2
    show ((M.getD b []).getD (maxLen race.ballots + 1 - 1) 0).toNat = 0
    simp only [Nat.add_sub_cancel]
    rw [h0]
    rfl
  · show sumR M.length (fun b => ((race.votes.getD b 0 : ℤ) : ℚ))
      = (race.votes.map fun v : ℤ => (v : ℚ)).sum
    rw [hMlen, ← hlen]
    exact sumR_getD race.votes
  · intro b hb s hs hgt
    rw [horig b] at hgt
    show (if s = 0 then (1 : ℚ) else 0) = 0
    rw [if_neg (by omega)]
  · intro b hb
    show sumR (mkCtx race mode M).S (fun s => if s = 0 then (1 : ℚ) else 0) = 1
    rw [sumR_eq_single (i := 0) _ hS fun j _ hj => if_neg hj]
    exact if_pos rfl

/-- The initial tabulator state satisfies the sign invariant when the votes are
non-negative. -/
theorem init_invN {race : RaceData} {mode : RoundMode} {M : List (List ℤ)}
    (hval : validate_and_standardize_ballots race.ballots race.metadata.names.length = .ok M)
    (hlen : race.votes.length = race.ballots.length)
    (hvotes : ∀ v ∈ race.votes, 0 ≤ v) :
    InvN (mkCtx race mode M) (initSt (mkCtx race mode M)) := by
  have hvb : ∀ b, (0 : ℚ) ≤ (mkCtx race mode M).votes b := by
    intro b
    show (0 : ℚ) ≤ ((race.votes.getD b 0 : ℤ) : ℚ)
    have : (0 : ℤ) ≤ race.votes.getD b 0 := by
      by_cases hb : b < race.votes.length
      · rw [List.getD_eq_getElem _ _ hb]
        exact hvotes _ (List.getElem_mem _)
      · rw [List.getD_eq_default _ _ (by omega)]
    exact_mod_cast this
  refine ⟨init_invC hval hlen, hvb, ?_, ?_⟩
  · show 0 ≤ votesNeeded ((race.votes.map fun v : ℤ => (v : ℚ)).sum) race.metadata.num_winners mode
    refine votesNeeded_nonneg _ _ _ ?_
    refine List.sum_nonneg fun x hx => ?_
    obtain ⟨v, hv, rfl⟩ := List.mem_map.mp hx
    exact_mod_cast hvotes v hv
  · intro b hb s hs
    show (0 : ℚ) ≤ if s = 0 then 1 else 0
    by_cases h : s = 0 <;> simp [h]

/-! ### Characterization of one round -/

theorem cGE_split (n : ℕ) (status : ℕ → ℤ) : cGE n status = cZero n status + cPos n status := by
  rw [cGE, cZero, cPos]
  rw [show (fun c => decide (0 ≤ status c))
      = fun c => (decide (status c = 0) || decide (0 < status c)) from
    funext fun c => by by_cases h : status c = 0 <;> simp [h] <;> omega]
  exact cnt_or fun c _ h => by
    have h1 := of_decide_eq_true h.1
    have h2 := of_decide_eq_true h.2
    omega

theorem cZero_eq_length (n : ℕ) (status : ℕ → ℤ) :
    cZero n status = (idxWhere n fun c => decide (status c = 0)).length := rfl

theorem minIdx_ne_nil (counts : ℕ → ℚ) (act : List ℕ) (hact : act ≠ []) :
    act.filter (fun c => counts c == minOver counts act) ≠ [] := by
  obtain ⟨c0, hc0, he⟩ := minOver_mem counts act hact
  intro h
  have hmem : c0 ∈ act.filter (fun c => counts c == minOver counts act) :=
    List.mem_filter.mpr ⟨hc0, by simp [he]⟩
  rw [h] at hmem
  exact List.not_mem_nil c0 hmem

/-- Structural facts about any successful branch decision: only undecided
candidates are decided, decided candidates keep their status, the newly decided
lists are duplicate-free, removals name real candidates, and with a
non-negative threshold all retain multipliers lie in `[0, 1]`. -/
theorem stepDecision_props {pick : List ℕ → ℕ} {ctx : Ctx} {st : St}
    {e el : List ℕ} {rm : List (ℕ × ℚ)} {s' : ℕ → ℤ} (hpick : PickMem pick)
    (hst0 : st.status 0 < 0)
    (hd : stepDecision pick ctx st = .ok (e, el, rm, s')) :
    (∀ c, s' c = 0 → st.status c = 0) ∧
    (∀ c, st.status c ≠ 0 → s' c = st.status c) ∧
    (e ++ el).Nodup ∧
    (∀ c ∈ e ++ el, st.status c = 0 ∧ c < ctx.numSlots ∧ s' c ≠ 0) ∧
    (∀ cm ∈ rm, 1 ≤ cm.1 ∧ cm.1 < ctx.numSlots ∧ st.status cm.1 = 0) ∧
    (0 ≤ ctx.vn → ∀ cm ∈ rm, 0 ≤ cm.2 ∧ cm.2 ≤ 1) := by
  rw [stepDecision] at hd
  split at hd
  · -- early stop: elect every undecided candidate
    simp only [Except.ok.injEq, Prod.mk.injEq] at hd
    obtain ⟨rfl, rfl, rfl, rfl⟩ := hd
    refine ⟨?_, ?_, ?_, ?_, ?_, ?_⟩
    · intro c h
      by_cases hc : st.status c = 0
      · exact hc
      · simp only [if_neg hc] at h; exact h
    · intro c hc; simp only [if_neg hc]
    · simpa using idxWhere_nodup ctx.numSlots _
    · intro c hc
      rw [List.append_nil] at hc
      obtain ⟨h1, h2⟩ := mem_idxWhere.mp hc
      have h3 := of_decide_eq_true h2
      exact ⟨h3, h1, by simp only [if_pos h3]; omega⟩
    · intro cm hcm; exact absurd hcm (List.not_mem_nil cm)
    · intro _ cm hcm; exact absurd hcm (List.not_mem_nil cm)
  · split at hd
    · -- election branch
      simp only [Except.ok.injEq, Prod.mk.injEq] at hd
      obtain ⟨rfl, rfl, rfl, rfl⟩ := hd
      refine ⟨?_, ?_, ?_, ?_, ?_, ?_⟩
      · intro c h
        by_cases hc : st.status c = 0 ∧ ctx.vn ≤ tallyAt ctx st.weights c
        · exact hc.1
        · simp only [if_neg hc] at h; exact h
      · intro c hc
        have hn : ¬(st.status c = 0 ∧ ctx.vn ≤ tallyAt ctx st.weights c) := fun h => hc h.1
        simp only [if_neg hn]
      · simpa using idxWhere_nodup ctx.numSlots _
      · intro c hc
        rw [List.append_nil] at hc
        obtain ⟨h1, h2⟩ := mem_idxWhere.mp hc
        have h3 := of_decide_eq_true h2
        exact ⟨h3.1, h1, by simp only [if_pos h3]; omega⟩
      · intro cm hcm
        obtain ⟨c, hc, rfl⟩ := List.mem_map.mp hcm
        obtain ⟨h1, h2⟩ := mem_idxWhere.mp hc
        have h3 := of_decide_eq_true h2
        have : c ≠ 0 := fun h => by rw [h] at h3; omega
        exact ⟨by omega, h1, h3.1⟩
      · intro hvn cm hcm
        obtain ⟨c, hc, rfl⟩ := List.mem_map.mp hcm
        obtain ⟨h1, h2⟩ := mem_idxWhere.mp hc
        have h3 := of_decide_eq_true h2
        by_cases hc0 : tallyAt ctx st.weights c = 0
        · rw [hc0]
          norm_num
        · have hpos : 0 < tallyAt ctx st.weights c := lt_of_le_of_ne (le_trans hvn h3.2) (Ne.symm hc0)
          exact ⟨div_nonneg hvn (le_of_lt hpos), (div_le_one hpos).mpr h3.2⟩
    · split at hd
      · exact absurd hd (by simp)
      · -- elimination branch
        rename_i h1 h2 h3
        simp only [Except.ok.injEq, Prod.mk.injEq] at hd
        obtain ⟨rfl, rfl, rfl, rfl⟩ := hd
        set e0 := pick ((idxWhere ctx.numSlots fun c => decide (st.status c = 0)).filter
          fun c => tallyAt ctx st.weights c ==
            minOver (tallyAt ctx st.weights)
              (idxWhere ctx.numSlots fun c => decide (st.status c = 0))) with he0
        have hfil := minIdx_ne_nil (tallyAt ctx st.weights)
          (idxWhere ctx.numSlots fun c => decide (st.status c = 0)) h3
        have hp := hpick _ hfil
        rw [← he0] at hp
        obtain ⟨hact, -⟩ := List.mem_filter.mp hp
        obtain ⟨hlt, hz⟩ := mem_idxWhere.mp hact
        have hz' := of_decide_eq_true hz
        refine ⟨?_, ?_, ?_, ?_, ?_, ?_⟩
        · intro c h
          by_cases hc : c = e0
          · simp only [if_pos hc] at h; omega
          · simp only [if_neg hc] at h; exact h
        · intro c hc
          have hn : ¬(c = e0) := fun h => hc (by rw [h]; exact hz')
          simp only [if_neg hn]
        · simp
        · intro c hc
          simp only [List.nil_append, List.mem_singleton] at hc
          subst hc
          exact ⟨hz', hlt, by simp⟩
        · intro cm hcm
          rw [List.mem_singleton] at hcm
          subst hcm
          have hne : e0 ≠ 0 := fun h => by rw [h] at hz'; omega
          exact ⟨Nat.one_le_iff_ne_zero.mpr hne, hlt, hz'⟩
        · intro _ cm hcm
          rw [List.mem_singleton] at hcm
          subst hcm
          norm_num

/-- Counting facts about any successful branch decision: the candidates at or
above `0` stay at least the number of winners, and each round either ends the
race (elected count reaches `W`) or strictly shrinks the undecided set. -/
theorem stepDecision_counts {pick : List ℕ → ℕ} {ctx : Ctx} {st : St}
    {e el : List ℕ} {rm : List (ℕ × ℚ)} {s' : ℕ → ℤ} (hpick : PickMem pick)
    (hst0 : st.status 0 < 0) (hge : ctx.W ≤ cGE ctx.numSlots st.status)
    (hd : stepDecision pick ctx st = .ok (e, el, rm, s')) :
    ctx.W ≤ cGE ctx.numSlots s' ∧
    (cPos ctx.numSlots s' = ctx.W ∨ cZero ctx.numSlots s' < cZero ctx.numSlots st.status) := by
  rw [stepDecision] at hd
  split at hd
  · rename_i h1
    simp only [Except.ok.injEq, Prod.mk.injEq] at hd
    obtain ⟨-, -, -, rfl⟩ := hd
    have hGE : cGE ctx.numSlots (fun c => if st.status c = 0 then 1 else st.status c)
        = cGE ctx.numSlots st.status := by
      refine cnt_congr fun c _ => ?_
      by_cases h : st.status c = 0 <;> simp [h] <;> omega
    have hPos : cPos ctx.numSlots (fun c => if st.status c = 0 then 1 else st.status c)
        = cZero ctx.numSlots st.status + cPos ctx.numSlots st.status := by
      rw [cPos, cZero, cPos]
      rw [show (fun c => decide (0 < if st.status c = 0 then 1 else st.status c))
          = fun c => (decide (st.status c = 0) || decide (0 < st.status c)) from
        funext fun c => by by_cases h : st.status c = 0 <;> simp [h] <;> omega]
      exact cnt_or fun c _ h => by
        have ha := of_decide_eq_true h.1
        have hb := of_decide_eq_true h.2
        omega
    rw [hGE, hPos, ← cGE_split, h1]
    exact ⟨le_refl _, Or.inl rfl⟩
  · split at hd
    · rename_i h1 h2
      simp only [Except.ok.injEq, Prod.mk.injEq] at hd
      obtain ⟨-, -, -, rfl⟩ := hd
      have hGE : cGE ctx.numSlots
          (fun c => if st.status c = 0 ∧ ctx.vn ≤ tallyAt ctx st.weights c then 1 else st.status c)
          = cGE ctx.numSlots st.status := by
        refine cnt_congr fun c _ => ?_
        by_cases h : st.status c = 0 ∧ ctx.vn ≤ tallyAt ctx st.weights c
        · simp only [if_pos h]
          simp [h.1]
        · simp only [if_neg h]
      have hsplit : cZero ctx.numSlots st.status
          = cnt ctx.numSlots
              (fun c => decide (st.status c = 0 ∧ ctx.vn ≤ tallyAt ctx st.weights c))
            + cZero ctx.numSlots
              (fun c => if st.status c = 0 ∧ ctx.vn ≤ tallyAt ctx st.weights c then 1
                else st.status c) := by
        rw [cZero, cZero]
        rw [show (fun c => decide (st.status c = 0))
            = fun c => (decide (st.status c = 0 ∧ ctx.vn ≤ tallyAt ctx st.weights c) ||
                decide ((if st.status c = 0 ∧ ctx.vn ≤ tallyAt ctx st.weights c then (1 : ℤ)
                  else st.status c) = 0)) from funext fun c => ?_]
        · exact cnt_or fun c _ h => by
            have ha := of_decide_eq_true h.1
            have hb := of_decide_eq_true h.2
            simp only [if_pos ha] at hb
            omega
        · by_cases h : st.status c = 0 ∧ ctx.vn ≤ tallyAt ctx st.weights c
          · simp [h, h.1]
          · simp [h]
      have hlen : 0 < cnt ctx.numSlots
          (fun c => decide (st.status c = 0 ∧ ctx.vn ≤ tallyAt ctx st.weights c)) := by
        rw [cnt]
        exact List.length_pos.mpr h2
      exact ⟨hGE ▸ hge, Or.inr (by omega)⟩
    · split at hd
      · exact absurd hd (by simp)
      · rename_i h1 h2 h3
        simp only [Except.ok.injEq, Prod.mk.injEq] at hd
        obtain ⟨-, -, -, rfl⟩ := hd
        have hfil := minIdx_ne_nil (tallyAt ctx st.weights)
          (idxWhere ctx.numSlots fun c => decide (st.status c = 0)) h3
        have hp := hpick _ hfil
        obtain ⟨hact, -⟩ := List.mem_filter.mp hp
        obtain ⟨hlt, hz⟩ := mem_idxWhere.mp hact
        have hz' := of_decide_eq_true hz
        set e0 := pick ((idxWhere ctx.numSlots fun c => decide (st.status c = 0)).filter
          fun c => tallyAt ctx st.weights c ==
            minOver (tallyAt ctx st.weights)
              (idxWhere ctx.numSlots fun c => decide (st.status c = 0))) with he0
        have hGE : cGE ctx.numSlots st.status
            = cnt ctx.numSlots (fun c => decide (c = e0))
              + cGE ctx.numSlots (fun c => if c = e0 then -1 else st.status c) := by
          rw [cGE, cGE]
          rw [show (fun c => decide (0 ≤ st.status c))
              = fun c => (decide (c = e0) ||
                decide (0 ≤ if c = e0 then (-1 : ℤ) else st.status c)) from funext fun c => ?_]
          · exact cnt_or fun c _ h => by
              have ha := of_decide_eq_true h.1
              have hb := of_decide_eq_true h.2
              simp only [if_pos ha] at hb
              omega
          · by_cases h : c = e0
            · subst h
              simp [hz']
            · simp [h]
        have hZ : cZero ctx.numSlots st.status
            = cnt ctx.numSlots (fun c => decide (c = e0))
              + cZero ctx.numSlots (fun c => if c = e0 then -1 else st.status c) := by
          rw [cZero, cZero]
          rw [show (fun c => decide (st.status c = 0))
              = fun c => (decide (c = e0) ||
                decide ((if c = e0 then (-1 : ℤ) else st.status c) = 0)) from funext fun c => ?_]
          · exact cnt_or fun c _ h => by
              have ha := of_decide_eq_true h.1
              have hb := of_decide_eq_true h.2
              simp only [if_pos ha] at hb
              omega
          · by_cases h : c = e0
            · subst h
              simp [hz']
            · simp [h]
        have hone := cnt_single (n := ctx.numSlots) (e := e0) hlt
        constructor
        · omega
        · right
          omega

/-- A successful decision exists whenever the loop is still running and at least
`W` candidates are elected or undecided. -/
theorem stepDecision_exists (pick : List ℕ → ℕ) (ctx : Ctx) (st : St)
    (hlt : cPos ctx.numSlots st.status < ctx.W)
    (hge : ctx.W ≤ cGE ctx.numSlots st.status) :
    ∃ q, stepDecision pick ctx st = .ok q := by
  rw [stepDecision]
  split
  · exact ⟨_, rfl⟩
  · split
    · exact ⟨_, rfl⟩
    · split
      · rename_i h1 h2 h3
        exfalso
        have : cZero ctx.numSlots st.status = 0 := by
          rw [cZero_eq_length, h3]
          rfl
        have := cGE_split ctx.numSlots st.status
        omega
      · exact ⟨_, rfl⟩

/-- With the invariant, the conservation check passes, so a successful decision
yields a successful round. -/
theorem step_eq_ok {pick : List ℕ → ℕ} {ctx : Ctx} {st : St}
    {e el : List ℕ} {rm : List (ℕ × ℚ)} {s' : ℕ → ℤ} (inv : InvC ctx st)
    (hd : stepDecision pick ctx st = .ok (e, el, rm, s')) :
    step pick ctx st = .ok
      (⟨countsList ctx st.weights, e, el,
        (applyRemovals ctx rm ([], { st with status := s' })).1⟩,
        stFold ctx rm { st with status := s' }) := by
  rw [step, hd, exBind_ok]
  have hcl : isclose (countsList ctx st.weights).sum ctx.total = true := by
    rw [countsList_sum ctx st.weights inv.balB inv.wSum, inv.htot]
    exact isclose_self _
  simp only [if_pos hcl, applyRemovals_snd]

/-- Inversion of a successful round into its decision and transfer parts. -/
theorem step_ok_inv {pick : List ℕ → ℕ} {ctx : Ctx} {st : St} {rr : RoundResult} {st' : St}
    (h : step pick ctx st = .ok (rr, st')) :
    ∃ e el rm s',
      stepDecision pick ctx st = .ok (e, el, rm, s') ∧
      rr = ⟨countsList ctx st.weights, e, el,
        (applyRemovals ctx rm ([], { st with status := s' })).1⟩ ∧
      st' = stFold ctx rm { st with status := s' } := by
  rw [step] at h
  cases hd : stepDecision pick ctx st with
  | error err => rw [hd, exBind_error] at h; exact absurd h (by simp)
  | ok q =>
    obtain ⟨e, el, rm, s'⟩ := q
    rw [hd, exBind_ok] at h
    split at h
    · simp only [Except.ok.injEq, Prod.mk.injEq] at h
      obtain ⟨h1, h2⟩ := h
      exact ⟨e, el, rm, s', rfl, h1.symm, h2.symm.trans (applyRemovals_snd ctx rm _)⟩
    · exact absurd h (by simp)


/-! ### The round loop -/

theorem invC_setStatus {ctx : Ctx} {st : St} (inv : InvC ctx st) {s' : ℕ → ℤ}
    (h0 : s' 0 < 0) : InvC ctx { st with status := s' } :=
  ⟨inv.hS, inv.hNS, inv.balB, inv.balLast, inv.htot, h0, inv.vLast, inv.oFV, inv.wSupp,
    inv.wSum⟩

theorem invN_setStatus {ctx : Ctx} {st : St} (inv : InvN ctx st) {s' : ℕ → ℤ}
    (h0 : s' 0 < 0) : InvN ctx { st with status := s' } :=
  ⟨invC_setStatus inv.toInvC h0, inv.vNN, inv.vnNN, inv.wNN⟩

theorem countsList_getD0 (ctx : Ctx) (w : ℕ → ℕ → ℚ) (h : 0 < ctx.numSlots) :
    (countsList ctx w).getD 0 0 = tallyAt ctx w 0 := by
  rw [countsList, List.getD_eq_getElem _ _ (by rw [List.length_map, List.length_range]; exact h),
    List.getElem_map]
  congr 1
  simp

theorem runLoop_done {pick : List ℕ → ℕ} {ctx : Ctx} (fuel : ℕ) (st : St)
    (h : ¬ cPos ctx.numSlots st.status < ctx.W) : runLoop pick ctx fuel st = .ok [] := by
  cases fuel with
  | zero => simp only [runLoop, if_neg h]
  | succ fuel => simp only [runLoop, if_neg h]

theorem runLoop_succ_inv {pick : List ℕ → ℕ} {ctx : Ctx} {fuel : ℕ} {st : St}
    {rounds : List RoundResult} (h : runLoop pick ctx (fuel + 1) st = .ok rounds)
    (hrun : cPos ctx.numSlots st.status < ctx.W) :
    ∃ rr st' rest, step pick ctx st = .ok (rr, st') ∧
      runLoop pick ctx fuel st' = .ok rest ∧ rounds = rr :: rest := by
  simp only [runLoop, if_pos hrun] at h
  cases hs : step pick ctx st with
  | error e => rw [hs, exBind_error] at h; exact absurd h (by simp)
  | ok rs =>
    obtain ⟨rr1, st1⟩ := rs
    rw [hs, exBind_ok] at h
    cases hr : runLoop pick ctx fuel (rr1, st1).2 with
    | error e => rw [hr, exBind_error] at h; exact absurd h (by simp)
    | ok rest =>
      rw [hr, exBind_ok] at h
      simp only [Except.ok.injEq] at h
      exact ⟨rr1, st1, rest, rfl, hr, h.symm⟩

theorem runLoop_nil {pick : List ℕ → ℕ} {ctx : Ctx} {fuel : ℕ} {st : St}
    {rounds : List RoundResult} (h : runLoop pick ctx fuel st = .ok rounds)
    (hrun : ¬ cPos ctx.numSlots st.status < ctx.W) : rounds = [] := by
  rw [runLoop_done fuel st hrun] at h
  simp only [Except.ok.injEq] at h
  exact h.symm

theorem runLoop_len {pick : List ℕ → ℕ} {ctx : Ctx} :
    ∀ (fuel : ℕ) (st : St) (rounds : List RoundResult),
      runLoop pick ctx fuel st = .ok rounds → rounds.length ≤ fuel := by
  intro fuel
  induction fuel with
  | zero =>
    intro st rounds h
    by_cases hrun : cPos ctx.numSlots st.status < ctx.W
    · simp only [runLoop, if_pos hrun] at h
      exact absurd h (by simp)
    · rw [runLoop_nil h hrun]
      exact Nat.le_refl 0
  | succ fuel ih =>
    intro st rounds h
    by_cases hrun : cPos ctx.numSlots st.status < ctx.W
    · obtain ⟨rr, st', rest, -, hr, rfl⟩ := runLoop_succ_inv h hrun
      rw [List.length_cons]
      exact Nat.succ_le_succ (ih st' rest hr)
    · rw [runLoop_nil h hrun]
      exact Nat.zero_le _

/-- Every round recorded by the loop conserves the vote mass exactly. -/
theorem runLoop_counts {pick : List ℕ → ℕ} {ctx : Ctx} (hpick : PickMem pick) :
    ∀ (fuel : ℕ) (st : St) (rounds : List RoundResult), InvC ctx st →
      runLoop pick ctx fuel st = .ok rounds → ∀ rr ∈ rounds, rr.count.sum = ctx.total := by
  intro fuel
  induction fuel with
  | zero =>
    intro st rounds inv h
    by_cases hrun : cPos ctx.numSlots st.status < ctx.W
    · simp only [runLoop, if_pos hrun] at h
      exact absurd h (by simp)
    · rw [runLoop_nil h hrun]
      intro rr hrr
      exact absurd hrr (List.not_mem_nil rr)
  | succ fuel ih =>
    intro st rounds inv h
    by_cases hrun : cPos ctx.numSlots st.status < ctx.W
    · obtain ⟨rr, st', rest, hs, hr, rfl⟩ := runLoop_succ_inv h hrun
      obtain ⟨e, el, rm, s', hd, hrr, hst'⟩ := step_ok_inv hs
      have props := stepDecision_props hpick inv.st0 hd
      have hs0ne : st.status 0 ≠ 0 := by have := inv.st0; omega
      have s'0 : s' 0 < 0 := by rw [props.2.1 0 hs0ne]; exact inv.st0
      have inv' : InvC ctx st' := by
        rw [hst']
        exact stFold_invC _ (invC_setStatus inv s'0) fun cm hcm =>
          (props.2.2.2.2.1 cm hcm).1
      intro rr' hmem
      rcases List.mem_cons.mp hmem with hcase | hcase
      · subst hcase
        rw [hrr]
        show (countsList ctx st.weights).sum = ctx.total
        rw [countsList_sum ctx st.weights inv.balB inv.wSum, inv.htot]
      · exact ih st' rest inv' hr rr' hcase
    · rw [runLoop_nil h hrun]
      intro rr hrr
      exact absurd hrr (List.not_mem_nil rr)

/-- The concatenation, in round order, of all decisions (newly elected then
newly eliminated candidates) of a result trace. -/
def decisions : List RoundResult → List ℕ
  | [] => []
  | rr :: rest => (rr.elected ++ rr.eliminated) ++ decisions rest

/-- Along a successful loop, the decided candidates are pairwise distinct and
all undecided at entry. -/
theorem runLoop_nodup {pick : List ℕ → ℕ} {ctx : Ctx} (hpick : PickMem pick) :
    ∀ (fuel : ℕ) (st : St) (rounds : List RoundResult), st.status 0 < 0 →
      runLoop pick ctx fuel st = .ok rounds →
      ((decisions rounds).Nodup ∧ ∀ c ∈ decisions rounds, st.status c = 0) := by
  intro fuel
  induction fuel with
  | zero =>
    intro st rounds h0 h
    by_cases hrun : cPos ctx.numSlots st.status < ctx.W
    · simp only [runLoop, if_pos hrun] at h
      exact absurd h (by simp)
    · rw [runLoop_nil h hrun]
      exact ⟨List.nodup_nil, fun c hc => absurd hc (List.not_mem_nil c)⟩
  | succ fuel ih =>
    intro st rounds h0 h
    by_cases hrun : cPos ctx.numSlots st.status < ctx.W
    · obtain ⟨rr, st', rest, hs, hr, rfl⟩ := runLoop_succ_inv h hrun
      obtain ⟨e, el, rm, s', hd, hrr, hst'⟩ := step_ok_inv hs
      have props := stepDecision_props hpick h0 hd
      have hs0ne : st.status 0 ≠ 0 := by omega
      have s'0 : s' 0 < 0 := by rw [props.2.1 0 hs0ne]; exact h0
      have hstat : st'.status = s' := by rw [hst']; exact stFold_status ctx rm _
      obtain ⟨ihn, ihm⟩ := ih st' rest (by rw [hstat]; exact s'0) hr
      have hdec : rr.elected ++ rr.eliminated = e ++ el := by rw [hrr]
      show ((rr.elected ++ rr.eliminated) ++ decisions rest).Nodup ∧
        ∀ c ∈ (rr.elected ++ rr.eliminated) ++ decisions rest, st.status c = 0
      rw [hdec]
      constructor
      · refine (props.2.2.1).append ihn ?_
        intro a ha hae
        have h1 := (props.2.2.2.1 a ha).2.2
        have h2 := ihm a hae
        rw [hstat] at h2
        exact h1 h2
      · intro c hc
        rcases List.mem_append.mp hc with hcase | hcase
        · exact (props.2.2.2.1 c hcase).1
        · have h2 := ihm c hcase
          rw [hstat] at h2
          exact props.1 c h2
    · rw [runLoop_nil h hrun]
      exact ⟨List.nodup_nil, fun c hc => absurd hc (List.not_mem_nil c)⟩

/-- On valid input the loop always succeeds within one round per undecided
candidate. -/
theorem runLoop_term {pick : List ℕ → ℕ} {ctx : Ctx} (hpick : PickMem pick) :
    ∀ (fuel : ℕ) (st : St), InvC ctx st → ctx.W ≤ cGE ctx.numSlots st.status →
      cZero ctx.numSlots st.status ≤ fuel →
      ∃ rounds, runLoop pick ctx fuel st = .ok rounds := by
  intro fuel
  induction fuel with
  | zero =>
    intro st inv hge hz
    refine ⟨[], runLoop_done 0 st ?_⟩
    have hsplit := cGE_split ctx.numSlots st.status
    omega
  | succ fuel ih =>
    intro st inv hge hz
    by_cases hrun : cPos ctx.numSlots st.status < ctx.W
    · obtain ⟨⟨e, el, rm, s'⟩, hd⟩ := stepDecision_exists pick ctx st hrun hge
      have hstep := step_eq_ok inv hd
      have props := stepDecision_props hpick inv.st0 hd
      have counting := stepDecision_counts hpick inv.st0 hge hd
      have hs0ne : st.status 0 ≠ 0 := by have := inv.st0; omega
      have s'0 : s' 0 < 0 := by rw [props.2.1 0 hs0ne]; exact inv.st0
      have inv' : InvC ctx (stFold ctx rm { st with status := s' }) :=
        stFold_invC _ (invC_setStatus inv s'0) fun cm hcm => (props.2.2.2.2.1 cm hcm).1
      have hstat : (stFold ctx rm { st with status := s' }).status = s' :=
        stFold_status ctx rm _
      obtain ⟨rest, hrest⟩ :
          ∃ rest, runLoop pick ctx fuel (stFold ctx rm { st with status := s' }) = .ok rest := by
        rcases counting.2 with hpos | hlt
        · exact ⟨[], runLoop_done fuel _ (by rw [hstat, hpos]; omega)⟩
        · exact ih _ inv' (by rw [hstat]; exact counting.1) (by rw [hstat]; omega)
      refine ⟨⟨countsList ctx st.weights, e, el,
        (applyRemovals ctx rm ([], { st with status := s' })).1⟩ :: rest, ?_⟩
      simp only [runLoop, if_pos hrun, hstep, exBind_ok, hrest]
    · exact ⟨[], runLoop_done _ _ hrun⟩

/-- Along a successful loop under the sign invariant, the exhausted-mass entry
of the recorded counts is non-decreasing round over round, and the first
round's entry is the current exhausted mass. -/
theorem runLoop_chain {pick : List ℕ → ℕ} {ctx : Ctx} (hpick : PickMem pick) :
    ∀ (fuel : ℕ) (st : St) (rounds : List RoundResult), InvN ctx st →
      runLoop pick ctx fuel st = .ok rounds →
      (List.Chain' (fun a b => a.count.getD 0 0 ≤ b.count.getD 0 0) rounds ∧
       ∀ rr, rounds.head? = some rr → rr.count.getD 0 0 = tallyAt ctx st.weights 0) := by
  intro fuel
  induction fuel with
  | zero =>
    intro st rounds inv h
    by_cases hrun : cPos ctx.numSlots st.status < ctx.W
    · simp only [runLoop, if_pos hrun] at h
      exact absurd h (by simp)
    · rw [runLoop_nil h hrun]
      exact ⟨List.chain'_nil, fun rr hrr => by simp at hrr⟩
  | succ fuel ih =>
    intro st rounds inv h
    by_cases hrun : cPos ctx.numSlots st.status < ctx.W
    · obtain ⟨rr, st', rest, hs, hr, rfl⟩ := runLoop_succ_inv h hrun
      obtain ⟨e, el, rm, s', hd, hrr, hst'⟩ := step_ok_inv hs
      have props := stepDecision_props hpick inv.st0 hd
      have hs0ne : st.status 0 ≠ 0 := by have := inv.toInvC.st0; omega
      have s'0 : s' 0 < 0 := by rw [props.2.1 0 hs0ne]; exact inv.toInvC.st0
      have hmults := props.2.2.2.2.2 inv.vnNN
      have hcands : ∀ cm ∈ rm, 1 ≤ cm.1 := fun cm hcm => (props.2.2.2.2.1 cm hcm).1
      have inv' : InvN ctx st' := by
        rw [hst']
        exact stFold_invN _ (invN_setStatus inv s'0) hcands hmults
      have hexh : tallyAt ctx st.weights 0 ≤ tallyAt ctx st'.weights 0 := by
        rw [hst']
        exact stFold_exh _ (invN_setStatus inv s'0) hcands hmults
      obtain ⟨ihc, ihh⟩ := ih st' rest inv' hr
      have hrr0 : rr.count.getD 0 0 = tallyAt ctx st.weights 0 := by
        rw [hrr]
        exact countsList_getD0 ctx st.weights inv.hNS
      constructor
      · rw [List.chain'_cons']
        refine ⟨?_, ihc⟩
        intro y hy
        rw [hrr0, ihh y (Option.mem_def.mp hy)]
        exact hexh
      · intro rr' hrr'
        simp only [List.head?_cons, Option.some.injEq] at hrr'
        rw [← hrr']
        exact hrr0
    · rw [runLoop_nil h hrun]
      exact ⟨List.chain'_nil, fun rr hrr => by simp at hrr⟩

/-- Inversion of a successful full run into validation and loop. -/
theorem run_rcv_ok_inv {race : RaceData} {mode : RoundMode} {pick : List ℕ → ℕ}
    {res : RaceResult} (h : run_rcv race mode pick = .ok res) :
    ∃ M rounds,
      validate_and_standardize_ballots race.ballots race.metadata.names.length = .ok M ∧
      runLoop pick (mkCtx race mode M) race.metadata.names.length
        (initSt (mkCtx race mode M)) = .ok rounds ∧
      res = ⟨race.metadata, rounds⟩ := by
  rw [run_rcv] at h
  cases hval : validate_and_standardize_ballots race.ballots race.metadata.names.length with
  | error e => rw [hval, exBind_error] at h; exact absurd h (by simp)
  | ok M =>
    rw [hval, exBind_ok] at h
    cases hloop : runLoop pick (mkCtx race mode M) race.metadata.names.length
        (initSt (mkCtx race mode M)) with
    | error e => rw [hloop, exBind_error] at h; exact absurd h (by simp)
    | ok rounds =>
      rw [hloop, exBind_ok] at h
      simp only [Except.ok.injEq] at h
      exact ⟨M, rounds, rfl, hloop, h.symm⟩


/-! ### The tie-break source only matters through its value on the tied list -/

theorem stepDecision_congr {pick1 pick2 : List ℕ → ℕ} (ctx : Ctx) (st : St)
    (h : ∀ l, l ≠ [] → pick1 l = pick2 l) :
    stepDecision pick1 ctx st = stepDecision pick2 ctx st := by
  rw [stepDecision, stepDecision]
  by_cases h1 : cGE ctx.numSlots st.status = ctx.W
  · rw [if_pos h1, if_pos h1]
  · rw [if_neg h1, if_neg h1]
    by_cases h2 : idxWhere ctx.numSlots
        (fun c => decide (st.status c = 0 ∧ ctx.vn ≤ tallyAt ctx st.weights c)) ≠ []
    · rw [if_pos h2, if_pos h2]
    · rw [if_neg h2, if_neg h2]
      by_cases h3 : idxWhere ctx.numSlots (fun c => decide (st.status c = 0)) = []
      · rw [if_pos h3, if_pos h3]
      · rw [if_neg h3, if_neg h3]
        have hm := minIdx_ne_nil (tallyAt ctx st.weights) _ h3
        simp only [h _ hm]

theorem step_congr {pick1 pick2 : List ℕ → ℕ} (ctx : Ctx) (st : St)
    (h : ∀ l, l ≠ [] → pick1 l = pick2 l) :
    step pick1 ctx st = step pick2 ctx st := by
  rw [step, step, stepDecision_congr ctx st h]

theorem runLoop_congr {pick1 pick2 : List ℕ → ℕ} (ctx : Ctx)
    (h : ∀ l, l ≠ [] → pick1 l = pick2 l) :
    ∀ (fuel : ℕ) (st : St), runLoop pick1 ctx fuel st = runLoop pick2 ctx fuel st := by
  intro fuel
  induction fuel with
  | zero => intro st; rfl
  | succ fuel ih =>
    intro st
    simp only [runLoop]
    rw [step_congr ctx st h,
      show (fun rs : RoundResult × St =>
          exBind (runLoop pick1 ctx fuel rs.2) fun rest => Except.ok (rs.1 :: rest))
        = fun rs => exBind (runLoop pick2 ctx fuel rs.2) fun rest => Except.ok (rs.1 :: rest)
        from funext fun rs => by rw [ih rs.2]]

/-- `run_rcv` only consults the tie-break source on non-empty tied lists. -/
theorem run_rcv_pick_congr (race : RaceData) (mode : RoundMode)
    {pick1 pick2 : List ℕ → ℕ} (h : ∀ l, l ≠ [] → pick1 l = pick2 l) :
    run_rcv race mode pick1 = run_rcv race mode pick2 := by
  rw [run_rcv, run_rcv]
  rw [show (fun M => exBind (runLoop pick1 (mkCtx race mode M) race.metadata.names.length
        (initSt (mkCtx race mode M))) fun rounds => Except.ok (⟨race.metadata, rounds⟩ : RaceResult))
      = fun M => exBind (runLoop pick2 (mkCtx race mode M) race.metadata.names.length
        (initSt (mkCtx race mode M))) fun rounds => Except.ok ⟨race.metadata, rounds⟩
      from funext fun M => by rw [runLoop_congr _ h]]

/-! ### Counting in the initial state -/

theorem cnt_true (n : ℕ) : cnt n (fun _ => true) = n := by
  induction n with
  | zero => rfl
  | succ n ih => rw [cnt_succ, ih, if_pos rfl]

theorem init_cZero (ctx : Ctx) (h : 0 < ctx.numSlots) :
    cZero ctx.numSlots (initSt ctx).status = ctx.numSlots - 1 := by
  have hsplit : cnt ctx.numSlots
      (fun c => decide (c = 0) || decide ((initSt ctx).status c = 0))
      = cnt ctx.numSlots (fun c => decide (c = 0))
        + cnt ctx.numSlots (fun c => decide ((initSt ctx).status c = 0)) := by
    refine cnt_or fun c _ hc => ?_
    have h1 := of_decide_eq_true hc.1
    have h2 := of_decide_eq_true hc.2
    rw [h1] at h2
    simp [initSt] at h2
  have htrue : cnt ctx.numSlots (fun c => decide (c = 0) || decide ((initSt ctx).status c = 0))
      = ctx.numSlots := by
    rw [show (fun c => decide (c = 0) || decide ((initSt ctx).status c = 0))
        = fun _ => true from funext fun c => ?_]
    · exact cnt_true ctx.numSlots
    · by_cases hc : c = 0
      · simp [hc]
      · simp [hc, initSt]
  have hone := cnt_single (n := ctx.numSlots) (e := 0) h
  rw [cZero]
  omega

theorem init_cGE (ctx : Ctx) (h : 0 < ctx.numSlots) :
    cGE ctx.numSlots (initSt ctx).status = ctx.numSlots - 1 := by
  have hz := init_cZero ctx h
  have hp : cPos ctx.numSlots (initSt ctx).status = 0 := by
    rw [cPos, show (fun c => decide (0 < (initSt ctx).status c)) = fun _ => false
      from funext fun c => by by_cases hc : c = 0 <;> simp [hc, initSt]]
    exact cnt_false ctx.numSlots
  have := cGE_split ctx.numSlots (initSt ctx).status
  omega


/-! ### Building and destructing concrete loop runs -/

theorem runLoop_cons {pick : List ℕ → ℕ} {ctx : Ctx} {fuel : ℕ} {st st' : St}
    {rr : RoundResult} {rest : List RoundResult}
    (hrun : cPos ctx.numSlots st.status < ctx.W)
    (hs : step pick ctx st = .ok (rr, st'))
    (hr : runLoop pick ctx fuel st' = .ok rest) :
    runLoop pick ctx (fuel + 1) st = .ok (rr :: rest) := by
  simp only [runLoop, if_pos hrun, hs, exBind_ok, hr]

/-- The loop hands back an empty round list exactly when the elected-candidate
count has reached the number of winners: this is the loop's only exit. -/
theorem runLoop_nil_iff {pick : List ℕ → ℕ} {ctx : Ctx} (fuel : ℕ) (st : St) :
    runLoop pick ctx fuel st = .ok [] ↔ ctx.W ≤ cPos ctx.numSlots st.status := by
  constructor
  · intro h
    by_cases hrun : cPos ctx.numSlots st.status < ctx.W
    · exfalso
      cases fuel with
      | zero =>
        simp only [runLoop, if_pos hrun] at h
        exact absurd h (by simp)
      | succ fuel =>
        simp only [runLoop, if_pos hrun] at h
        cases hs : step pick ctx st with
        | error e => rw [hs, exBind_error] at h; exact absurd h (by simp)
        | ok rs =>
          rw [hs, exBind_ok] at h
          cases hr : runLoop pick ctx fuel rs.2 with
          | error e => rw [hr, exBind_error] at h; exact absurd h (by simp)
          | ok rest => rw [hr, exBind_ok] at h; exact absurd h (by simp)
    · omega
  · intro h
    exact (runLoop_done fuel st (by omega)).trans rfl

/-- Two tie-break sources that agree on the tied-minimum list of the current
state (when the elimination branch is the one reached) make the same decision. -/
theorem stepDecision_congr_pick {pick1 pick2 : List ℕ → ℕ} (ctx : Ctx) (st : St)
    (h : cGE ctx.numSlots st.status ≠ ctx.W →
      idxWhere ctx.numSlots
        (fun c => decide (st.status c = 0 ∧ ctx.vn ≤ tallyAt ctx st.weights c)) = [] →
      pick1 ((idxWhere ctx.numSlots (fun c => decide (st.status c = 0))).filter
        fun c => tallyAt ctx st.weights c ==
          minOver (tallyAt ctx st.weights) (idxWhere ctx.numSlots fun c => decide (st.status c = 0)))
      = pick2 ((idxWhere ctx.numSlots (fun c => decide (st.status c = 0))).filter
        fun c => tallyAt ctx st.weights c ==
          minOver (tallyAt ctx st.weights)
            (idxWhere ctx.numSlots fun c => decide (st.status c = 0)))) :
    stepDecision pick1 ctx st = stepDecision pick2 ctx st := by
  rw [stepDecision, stepDecision]
  by_cases h1 : cGE ctx.numSlots st.status = ctx.W
  · rw [if_pos h1, if_pos h1]
  · rw [if_neg h1, if_neg h1]
    by_cases h2 : idxWhere ctx.numSlots
        (fun c => decide (st.status c = 0 ∧ ctx.vn ≤ tallyAt ctx st.weights c)) ≠ []
    · rw [if_pos h2, if_pos h2]
    · rw [if_neg h2, if_neg h2]
      by_cases h3 : idxWhere ctx.numSlots (fun c => decide (st.status c = 0)) = []
      · rw [if_pos h3, if_pos h3]
      · rw [if_neg h3, if_neg h3, h h1 (not_ne_iff.mp h2)]

theorem step_congr_pick {pick1 pick2 : List ℕ → ℕ} (ctx : Ctx) (st : St)
    (h : stepDecision pick1 ctx st = stepDecision pick2 ctx st) :
    step pick1 ctx st = step pick2 ctx st := by
  rw [step, step, h]

/-- On a singleton list the membership guarantee pins the choice down. -/
theorem pick_singleton {pick : List ℕ → ℕ} (hpick : PickMem pick) (l : List ℕ) (c : ℕ)
    (h : l = [c]) : pick l = c := by
  subst h
  simpa using hpick [c] (by simp)

/-- A round whose viable candidates exactly match the required winners elects
every undecided candidate — whatever its tally — eliminates nobody, transfers
nothing, and is the last round of the loop. -/
theorem earlyStop_round {pick : List ℕ → ℕ} {ctx : Ctx} {st : St} (fuel : ℕ)
    (inv : InvC ctx st)
    (hrun : cPos ctx.numSlots st.status < ctx.W)
    (hes : cGE ctx.numSlots st.status = ctx.W) :
    runLoop pick ctx (fuel + 1) st = .ok
      [⟨countsList ctx st.weights,
        idxWhere ctx.numSlots (fun c => decide (st.status c = 0)), [], []⟩] := by
  have hd : stepDecision pick ctx st = .ok
      (idxWhere ctx.numSlots (fun c => decide (st.status c = 0)), [], [],
        fun c => if st.status c = 0 then 1 else st.status c) := by
    rw [stepDecision, if_pos hes]
  have hstep : step pick ctx st = .ok
      (⟨countsList ctx st.weights,
        idxWhere ctx.numSlots (fun c => decide (st.status c = 0)), [], []⟩,
        { st with status := fun c => if st.status c = 0 then 1 else st.status c }) :=
    step_eq_ok inv hd
  have hpos : cPos ctx.numSlots
      (fun c => if st.status c = 0 then (1 : ℤ) else st.status c) = ctx.W := by
    rw [← hes]
    show cnt _ _ = cnt _ _
    refine cnt_congr fun c _ => ?_
    by_cases h : st.status c = 0
    · simp [h]
    · simp only [if_neg h, decide_eq_decide]
      omega
  refine runLoop_cons hrun hstep (runLoop_done fuel _ ?_)
  show ¬ cPos ctx.numSlots (fun c => if st.status c = 0 then (1 : ℤ) else st.status c) < ctx.W
  rw [hpos]
  omega

/-! ### Validation under int8-safe entries -/

theorem toInt8_eq_self {x : ℤ} (h1 : -128 ≤ x) (h2 : x ≤ 127) : toInt8 x = x := by
  rw [toInt8]
  omega

theorem idxWhere_congr {n : ℕ} {p q : ℕ → Bool} (h : ∀ i < n, p i = q i) :
    idxWhere n p = idxWhere n q := by
  rw [idxWhere, idxWhere]
  exact List.filter_congr fun i hi => h i (List.mem_range.mp hi)

/-- When every raw entry fits in `int8`, a padded and cast row is out of
bounds exactly when the raw row holds an entry outside `[0, num_cands]`. -/
theorem rowOOB_padded {ballots : List (List ℤ)} (numCands : ℕ)
    (hrange : ∀ r ∈ ballots, ∀ e ∈ r, -128 ≤ e ∧ e ≤ 127)
    {i : ℕ} (hi : i < ballots.length) :
    rowOOB ((padTo (ballots.getD i []) (maxLen ballots)).map toInt8) numCands
      = (ballots.getD i []).any fun e => decide (e < 0) || decide ((numCands : ℤ) < e) := by
  have hmem : ballots.getD i [] ∈ ballots := by
    rw [List.getD_eq_getElem _ _ hi]
    exact List.getElem_mem _
  rw [Bool.eq_iff_iff, rowOOB, List.any_eq_true, List.any_eq_true]
  constructor
  · rintro ⟨x, hx, hviol⟩
    obtain ⟨e, he, rfl⟩ := List.mem_map.mp hx
    rw [padTo] at he
    rcases List.mem_append.mp he with he1 | he2
    · refine ⟨e, he1, ?_⟩
      rwa [toInt8_eq_self (hrange _ hmem e he1).1 (hrange _ hmem e he1).2] at hviol
    · exfalso
      have he0 : e = 0 := List.eq_of_mem_replicate he2
      subst he0
      rw [show toInt8 0 = 0 from rfl] at hviol
      simp only [Bool.or_eq_true, decide_eq_true_eq] at hviol
      omega
  · rintro ⟨e, he, hviol⟩
    refine ⟨toInt8 e, List.mem_map.mpr ⟨e, ?_, rfl⟩, ?_⟩
    · rw [padTo]
      exact List.mem_append_left _ he
    · rwa [toInt8_eq_self (hrange _ hmem e he).1 (hrange _ hmem e he).2]

/-- The rows `check_oob` collects on the padded and cast matrix are exactly
the raw rows holding an out-of-range entry, provided every entry fits in
`int8`. -/
theorem check_oob_range (numCands : ℕ) {ballots : List (List ℤ)}
    (hrange : ∀ r ∈ ballots, ∀ e ∈ r, -128 ≤ e ∧ e ≤ 127) :
    check_oob (ballots.map fun r => (padTo r (maxLen ballots)).map toInt8) numCands
      = idxWhere ballots.length
          (fun i => (ballots.getD i []).any fun e =>
            decide (e < 0) || decide ((numCands : ℤ) < e)) := by
  rw [check_oob, List.length_map]
  refine idxWhere_congr fun i hi => ?_
  have hget : (ballots.map fun r => (padTo r (maxLen ballots)).map toInt8).getD i []
      = (padTo (ballots.getD i []) (maxLen ballots)).map toInt8 := by
    rw [List.getD_eq_getElem _ _ (by rw [List.length_map]; exact hi), List.getElem_map,
      List.getD_eq_getElem _ _ hi]
  rw [hget]
  exact rowOOB_padded numCands hrange hi

/-! ### Concrete races -/

deriving instance DecidableEq for Except


/-- Scenario A of the test-suite: 2 candidates, 1 seat. -/
def raceA : RaceData := ⟨⟨"race", 1, ["A", "B"]⟩, [[2, 1], [1, 2]], [2, 1]⟩

/-- Scenario B of the specification: 3 candidates, 1 seat, one elimination. -/
def raceB : RaceData := ⟨⟨"race", 1, ["A", "B", "C"]⟩, [[1, 2, 3], [2, 1, 3], [3, 1, 2]], [2, 2, 1]⟩

/-- The simultaneous-election scenario: 3 candidates, 2 seats. -/
def raceS : RaceData := ⟨⟨"race", 2, ["A", "B", "C"]⟩, [[2, 1, 3], [1, 2, 3]], [3, 2]⟩

/-- A race decided entirely by the early-stop shortcut, electing candidate `2`
with zero tallied votes. -/
def raceE : RaceData := ⟨⟨"race", 2, ["A", "B"]⟩, [[1, 2]], [1]⟩

/-- A race whose single ballot leaves its first slot blank and ranks candidate
`1` second. -/
def raceP : RaceData := ⟨⟨"race", 1, ["A"]⟩, [[0, 1]], [1]⟩

/-! ### The claims -/

/-- C1 — Vote-mass conservation: for every valid `RaceData` (equal `ballots` and
`votes` lengths) and every rounding policy, in the `RaceResult` returned by
`run_rcv` the sum of the entries of every round's count vector (the
exhausted-mass entry at index `0` included) equals the sum of
`race_data.votes`.  The rational model proves exact equality, which implies
equality within any floating tolerance. -/
theorem claim_C1_conservation (race : RaceData) (mode : RoundMode) (pick : List ℕ → ℕ)
    (res : RaceResult) (hpick : PickMem pick)
    (hlen : race.votes.length = race.ballots.length)
    (hrun : run_rcv race mode pick = .ok res) :
    ∀ rr ∈ res.rounds, rr.count.sum = (race.votes.map (fun v : ℤ => (v : ℚ))).sum := by
  obtain ⟨M, rounds, hval, hloop, rfl⟩ := run_rcv_ok_inv hrun
  exact runLoop_counts hpick _ _ _ (init_invC hval hlen) hloop

theorem claim_C1_conservation_witness :
    run_rcv raceA .ADD_ONE_FLOOR pickHead = .ok ⟨raceA.metadata, [⟨[0, 1, 2], [2], [], []⟩]⟩ ∧
    (⟨[0, 1, 2], [2], [], []⟩ : RoundResult).count.sum
      = (raceA.votes.map (fun v : ℤ => (v : ℚ))).sum := by
  have hrun : run_rcv raceA .ADD_ONE_FLOOR pickHead
      = .ok ⟨raceA.metadata, [⟨[0, 1, 2], [2], [], []⟩]⟩ := by with_unfolding_all decide
  exact ⟨hrun, claim_C1_conservation raceA .ADD_ONE_FLOOR pickHead _ pickHead_mem rfl hrun
    _ (List.mem_singleton.mpr rfl)⟩

/-- C2 — Threshold computation: `run_rcv` computes the winning threshold once,
before round 1 (structurally: `votesNeeded` is applied once, outside the loop,
in the definition of `run_rcv`), from `total = Σ votes` and `W = num_winners`
with `raw = total / (W + 1)`; `CEILING` yields `⌈raw⌉`, the default
`ADD_ONE_FLOOR` yields `⌊raw⌋ + 1`, and `FRACTIONAL` yields `raw + ε` with
`ε = 1e-5`; for `total = 100` and `W = 1` the three thresholds are `50`, `51`
and `50 + ε`. -/
theorem claim_C2_threshold :
    (∀ (total : ℚ) (W : ℕ),
      votesNeeded total W .CEILING = (⌈total / ((W : ℚ) + 1)⌉ : ℚ) ∧
      votesNeeded total W .ADD_ONE_FLOOR = (⌊total / ((W : ℚ) + 1)⌋ : ℚ) + 1 ∧
      votesNeeded total W .FRACTIONAL = total / ((W : ℚ) + 1) + EPSILON) ∧
    EPSILON = 1 / 100000 ∧
    votesNeeded 100 1 .CEILING = 50 ∧
    votesNeeded 100 1 .ADD_ONE_FLOOR = 51 ∧
    votesNeeded 100 1 .FRACTIONAL = 50 + EPSILON := by
  refine ⟨fun total W => ⟨rfl, ?_, rfl⟩, rfl, ?_, ?_, ?_⟩
  · show (⌊1 + total / ((W : ℚ) + 1)⌋ : ℚ) = (⌊total / ((W : ℚ) + 1)⌋ : ℚ) + 1
    rw [add_comm (1 : ℚ), Int.floor_add_one]
    push_cast
    ring
  · show (⌈(100 : ℚ) / ((1 : ℚ) + 1)⌉ : ℚ) = 50
    norm_num
  · show (⌊1 + (100 : ℚ) / ((1 : ℚ) + 1)⌋ : ℚ) = 51
    norm_num
  · show (100 : ℚ) / ((1 : ℚ) + 1) + EPSILON = 50 + EPSILON
    norm_num

/-- C3 — Early-stop shortcut: in any loop state where the number of candidates
not yet eliminated (elected or still in the running, `cGE`) equals exactly the
number of winners, the round declares all undecided candidates elected — the
elected list is `idxWhere (status = 0)`, computed without consulting the vote
threshold or the tallies — eliminates nobody, transfers nothing, and ends the
round loop.  In particular on `raceE` (two candidates, two seats, a single
ballot ranking only candidate 1) the run ends in one round electing
candidates 1 and 2, candidate 2 carrying zero tallied votes. -/
theorem claim_C3_early_stop :
    (∀ (pick : List ℕ → ℕ) (ctx : Ctx) (st : St) (fuel : ℕ), InvC ctx st →
      cPos ctx.numSlots st.status < ctx.W →
      cGE ctx.numSlots st.status = ctx.W →
      runLoop pick ctx (fuel + 1) st = .ok
        [⟨countsList ctx st.weights,
          idxWhere ctx.numSlots (fun c => decide (st.status c = 0)), [], []⟩]) ∧
    (∀ pick : List ℕ → ℕ, run_rcv raceE .ADD_ONE_FLOOR pick
      = .ok ⟨raceE.metadata, [⟨[0, 1, 0], [1, 2], [], []⟩]⟩) := by
  constructor
  · intro pick ctx st fuel inv hrun hes
    exact earlyStop_round fuel inv hrun hes
  · intro pick
    have hval : validate_and_standardize_ballots raceE.ballots raceE.metadata.names.length
        = .ok [[1, 2, 0]] := by decide
    have hinv : InvC (mkCtx raceE .ADD_ONE_FLOOR [[1, 2, 0]])
        (initSt (mkCtx raceE .ADD_ONE_FLOOR [[1, 2, 0]])) := init_invC hval rfl
    simp only [run_rcv, hval, exBind_ok]
    rw [show raceE.metadata.names.length = 1 + 1 from rfl,
      earlyStop_round 1 hinv (by decide) (by decide), exBind_ok]
    with_unfolding_all decide

theorem claim_C3_early_stop_witness :
    run_rcv raceE .ADD_ONE_FLOOR pickHead
      = .ok ⟨raceE.metadata, [⟨[0, 1, 0], [1, 2], [], []⟩]⟩ :=
  claim_C3_early_stop.2 pickHead

/-- C4 — Termination bound: on every valid input (validation succeeds, one
vote total per ballot, `1 ≤ num_winners ≤ N` where `N` is the number of
candidates), `run_rcv` terminates — the fuel of one round per candidate is
never exhausted — with a trace of at most `N` rounds; and the round loop's
only way to stop adding rounds is the cumulative elected-candidate count
having reached `num_winners`. -/
theorem claim_C4_termination (race : RaceData) (mode : RoundMode) (pick : List ℕ → ℕ)
    (M : List (List ℤ)) (hpick : PickMem pick)
    (hval : validate_and_standardize_ballots race.ballots race.metadata.names.length = .ok M)
    (hlen : race.votes.length = race.ballots.length)
    (hW1 : 1 ≤ race.metadata.num_winners)
    (hWN : race.metadata.num_winners ≤ race.metadata.names.length) :
    (∃ res : RaceResult, run_rcv race mode pick = .ok res ∧
      res.rounds.length ≤ race.metadata.names.length) ∧
    (∀ (fuel : ℕ) (st : St),
      runLoop pick (mkCtx race mode M) fuel st = .ok [] ↔
        race.metadata.num_winners ≤ cPos (mkCtx race mode M).numSlots st.status) := by
  constructor
  · have hinv : InvC (mkCtx race mode M) (initSt (mkCtx race mode M)) := init_invC hval hlen
    have hNS : 0 < (mkCtx race mode M).numSlots := Nat.succ_pos _
    have hge : race.metadata.num_winners
        ≤ cGE (mkCtx race mode M).numSlots (initSt (mkCtx race mode M)).status := by
      rw [init_cGE _ hNS]
      show race.metadata.num_winners ≤ race.metadata.names.length + 1 - 1
      omega
    have hz : cZero (mkCtx race mode M).numSlots (initSt (mkCtx race mode M)).status
        ≤ race.metadata.names.length := by
      rw [init_cZero _ hNS]
      show race.metadata.names.length + 1 - 1 ≤ race.metadata.names.length
      omega
    obtain ⟨rounds, hloop⟩ := runLoop_term hpick race.metadata.names.length _ hinv hge hz
    refine ⟨⟨race.metadata, rounds⟩, ?_, ?_⟩
    · simp only [run_rcv, hval, exBind_ok, hloop]
    · show rounds.length ≤ race.metadata.names.length
      exact runLoop_len _ _ _ hloop
  · intro fuel st
    exact runLoop_nil_iff fuel st

theorem claim_C4_termination_witness :
    validate_and_standardize_ballots raceB.ballots raceB.metadata.names.length
      = .ok [[1, 2, 3, 0], [2, 1, 3, 0], [3, 1, 2, 0]] ∧
    (∃ res : RaceResult, run_rcv raceB .ADD_ONE_FLOOR pickHead = .ok res ∧
      res.rounds.length ≤ raceB.metadata.names.length) := by
  have hval : validate_and_standardize_ballots raceB.ballots raceB.metadata.names.length
      = .ok [[1, 2, 3, 0], [2, 1, 3, 0], [3, 1, 2, 0]] := by decide
  exact ⟨hval, (claim_C4_termination raceB .ADD_ONE_FLOOR pickHead _ pickHead_mem hval rfl
    (by decide) (by decide)).1⟩

/-- C5 — Simultaneous election with surplus transfer: on the race with 3
candidates, 2 seats, ballots `[[2,1,3],[1,2,3]]` and votes `[3,2]` under the
default policy, every tie-break source gives a single round whose elected
list holds candidates 1 and 2 (elected simultaneously), whose count is
`[0, 2, 3, 0]`, and whose transfer map carries exactly 1 vote from candidate
2 to candidate 3; the threshold is `2` and candidate 2's retain multiplier
`threshold / tally` is `2/3`. -/
theorem claim_C5_simultaneous :
    (∀ pick : List ℕ → ℕ, run_rcv raceS .ADD_ONE_FLOOR pick
      = .ok ⟨raceS.metadata, [⟨[0, 2, 3, 0], [1, 2], [], [(2, [(3, 1)])]⟩]⟩) ∧
    votesNeeded ((raceS.votes.map (fun v : ℤ => (v : ℚ))).sum)
      raceS.metadata.num_winners .ADD_ONE_FLOOR = 2 ∧
    votesNeeded ((raceS.votes.map (fun v : ℤ => (v : ℚ))).sum)
        raceS.metadata.num_winners .ADD_ONE_FLOOR
      / tallyAt (mkCtx raceS .ADD_ONE_FLOOR [[2, 1, 3, 0], [1, 2, 3, 0]])
          (initSt (mkCtx raceS .ADD_ONE_FLOOR [[2, 1, 3, 0], [1, 2, 3, 0]])).weights 2
      = 2 / 3 := by
  refine ⟨fun pick => by with_unfolding_all rfl, by with_unfolding_all decide,
    by with_unfolding_all decide⟩

theorem claim_C5_simultaneous_witness :
    run_rcv raceS .ADD_ONE_FLOOR pickHead
      = .ok ⟨raceS.metadata, [⟨[0, 2, 3, 0], [1, 2], [], [(2, [(3, 1)])]⟩]⟩ :=
  claim_C5_simultaneous.1 pickHead

/-- Modelled from the spec: each ballot's initial current pointer is its first
non-sentinel (non-zero) slot, or the trailing fallback slot when the ballot is
entirely blank. -/
def spec_initial_pointer (ctx : Ctx) (b : ℕ) : ℤ :=
  if firstValid ctx.S (fun s => !(ctx.bal b s == 0)) = -1 then (ctx.S : ℤ) - 1
  else firstValid ctx.S (fun s => !(ctx.bal b s == 0))

/-- C7 — counterexample: on the race with one candidate and the single ballot
`[0, 1]` (first slot blank, candidate 1 ranked second), the spec's initial
pointer is slot `1`, but the code computes `_first_nonzero` on the all-`True`
validity mask, initializing the pointer to slot `0` — where all the weight
sits — so in round 1 the ballot's full vote mass lands on the exhausted entry
(count `[1, 0]`) and candidate 1 tallies `0`, not its full mass. -/
theorem claim_C7_cex :
    spec_initial_pointer (mkCtx raceP .ADD_ONE_FLOOR [[0, 1, 0]]) 0 = 1 ∧
    (initSt (mkCtx raceP .ADD_ONE_FLOOR [[0, 1, 0]])).orig 0 = 0 ∧
    validate_and_standardize_ballots raceP.ballots raceP.metadata.names.length
      = .ok [[0, 1, 0]] ∧
    run_rcv raceP .ADD_ONE_FLOOR pickHead
      = .ok ⟨raceP.metadata, [⟨[1, 0], [1], [], []⟩]⟩ ∧
    tallyAt (mkCtx raceP .ADD_ONE_FLOOR [[0, 1, 0]])
      (initSt (mkCtx raceP .ADD_ONE_FLOOR [[0, 1, 0]])).weights 1 = 0 := by
  refine ⟨by decide, by decide, by decide, by with_unfolding_all decide,
    by with_unfolding_all decide⟩

/-- C7 (amended) — Per-ballot weight and pointer initialization: every
ballot's initial weight vector has `1.0` on slot `0` and `0` elsewhere, and
every ballot's initial current pointer is slot `0` unconditionally
(`_first_nonzero` is applied to the all-`True` validity mask, not to the
ballot entries); consequently in round 1 each slot's tally collects the full
vote mass of exactly the ballots whose first slot names it — a ballot whose
first slot is blank contributes its full mass to the exhausted entry. -/
theorem claim_C7_init (race : RaceData) (mode : RoundMode) (M : List (List ℤ)) :
    (∀ b s, (initSt (mkCtx race mode M)).weights b s = if s = 0 then 1 else 0) ∧
    (∀ b, (initSt (mkCtx race mode M)).orig b = 0) ∧
    (∀ c, tallyAt (mkCtx race mode M) (initSt (mkCtx race mode M)).weights c
      = sumR (mkCtx race mode M).B fun b =>
          if (mkCtx race mode M).bal b 0 = c then (mkCtx race mode M).votes b else 0) := by
  refine ⟨fun b s => rfl, fun b => ?_, fun c => ?_⟩
  · show firstValid (mkCtx race mode M).S (fun _ => true) = 0
    exact firstValid_all_true (Nat.succ_pos _)
  · rw [tallyAt]
    refine sumR_congr fun b hb => ?_
    have h0S : (0 : ℕ) < (mkCtx race mode M).S := Nat.succ_pos _
    have hz : ∀ j < (mkCtx race mode M).S, j ≠ 0 →
        (if (mkCtx race mode M).bal b j = c then
          (initSt (mkCtx race mode M)).weights b j * (mkCtx race mode M).votes b else 0)
          = 0 := by
      intro j hj hj0
      show (if (mkCtx race mode M).bal b j = c then
          (if j = 0 then (1 : ℚ) else 0) * (mkCtx race mode M).votes b else 0) = 0
      rw [if_neg hj0]
      by_cases h : (mkCtx race mode M).bal b j = c
      · rw [if_pos h, zero_mul]
      · rw [if_neg h]
    rw [sumR_eq_single _ h0S hz]
    show (if (mkCtx race mode M).bal b 0 = c then
        (if (0 : ℕ) = 0 then (1 : ℚ) else 0) * (mkCtx race mode M).votes b else 0)
      = if (mkCtx race mode M).bal b 0 = c then (mkCtx race mode M).votes b else 0
    by_cases h : (mkCtx race mode M).bal b 0 = c
    · rw [if_pos h, if_pos h, if_pos rfl, one_mul]
    · rw [if_neg h, if_neg h]

/-- C8 — Monotonic decisions: in every `RaceResult` produced by `run_rcv`, each
candidate index appears at most once in the concatenation of all rounds'
elected and eliminated lists: never in both lists, never in more than one
round, and once decided never again subject to a later round's action. -/
theorem claim_C8_monotone (race : RaceData) (mode : RoundMode) (pick : List ℕ → ℕ)
    (res : RaceResult) (hpick : PickMem pick)
    (hrun : run_rcv race mode pick = .ok res) :
    (decisions res.rounds).Nodup := by
  obtain ⟨M, rounds, hval, hloop, rfl⟩ := run_rcv_ok_inv hrun
  refine (runLoop_nodup hpick _ _ _ ?_ hloop).1
  show (if (0 : ℕ) = 0 then (-2 : ℤ) else 0) < 0
  norm_num

theorem claim_C8_monotone_witness :
    run_rcv raceB .ADD_ONE_FLOOR pickHead
      = .ok ⟨raceB.metadata, [⟨[0, 2, 2, 1], [], [3], [(3, [(1, 1)])]⟩,
          ⟨[0, 3, 2, 0], [1], [], []⟩]⟩ ∧
    (decisions [⟨[0, 2, 2, 1], [], [3], [(3, [(1, 1)])]⟩,
      (⟨[0, 3, 2, 0], [1], [], []⟩ : RoundResult)]).Nodup := by
  have hrun : run_rcv raceB .ADD_ONE_FLOOR pickHead
      = .ok ⟨raceB.metadata, [⟨[0, 2, 2, 1], [], [3], [(3, [(1, 1)])]⟩,
          ⟨[0, 3, 2, 0], [1], [], []⟩]⟩ := by with_unfolding_all decide
  exact ⟨hrun, claim_C8_monotone raceB .ADD_ONE_FLOOR pickHead _ pickHead_mem hrun⟩

/-- C9 — counterexample: the ballot entry `256` violates `0 ≤ entry ≤ 2`, yet
`validate_and_standardize_ballots [[256]] 2` raises no error at all: the
ballot matrix is built with `dtype=np.int8`, so `256` wraps to `0` before the
bounds check, and the call returns the standardized matrix `[[0, 0]]`. -/
theorem claim_C9_cex :
    ((256 : ℤ) < 0 ∨ (2 : ℤ) < 256) ∧
    validate_and_standardize_ballots [[256]] 2 = .ok [[0, 0]] ∧
    toInt8 256 = 0 := by
  refine ⟨by norm_num, by decide, by decide⟩

/-- C9 (amended) — Out-of-bounds rejection for `int8`-representable ballots:
when every ballot entry lies in `[-128, 127]` (the range `np.int8` keeps
unchanged), `validate_and_standardize_ballots` fails with an out-of-bounds
error if and only if some entry violates `0 ≤ entry ≤ num_candidates`, and
the error names exactly the indices of all rows holding a violating entry,
in ascending order; in particular `[[1,0,0],[1,2,-1],[1,2,3]]` with
`num_candidates = 2` is rejected naming rows `[1, 2]`, row index `1` among
them. -/
theorem claim_C9_oob (ballots : List (List ℤ)) (numCands : ℕ)
    (hrange : ∀ r ∈ ballots, ∀ e ∈ r, -128 ≤ e ∧ e ≤ 127) :
    ((∃ rows, validate_and_standardize_ballots ballots numCands = .error (.oob rows)) ↔
      ∃ r ∈ ballots, ∃ e ∈ r, e < 0 ∨ (numCands : ℤ) < e) ∧
    (∀ rows, validate_and_standardize_ballots ballots numCands = .error (.oob rows) →
      rows = idxWhere ballots.length
        (fun i => (ballots.getD i []).any fun e =>
          decide (e < 0) || decide ((numCands : ℤ) < e))) ∧
    validate_and_standardize_ballots [[1, 0, 0], [1, 2, -1], [1, 2, 3]] 2
      = .error (.oob [1, 2]) ∧
    (1 : ℕ) ∈ [1, 2] := by
  have hco := check_oob_range numCands hrange
  refine ⟨⟨?_, ?_⟩, ?_, by decide, by decide⟩
  · rintro ⟨rows, hrow⟩
    rw [validate_and_standardize_ballots] at hrow
    split at hrow
    · exact absurd hrow (by simp)
    · split at hrow
      · rename_i hml hoob
        rw [hco] at hoob
        have hex : ∃ i < ballots.length,
            ((ballots.getD i []).any fun e =>
              decide (e < 0) || decide ((numCands : ℤ) < e)) = true := by
          by_contra hall
          push_neg at hall
          refine hoob (idxWhere_eq_nil.mpr fun i hi => ?_)
          have := hall i hi
          simpa using this
        obtain ⟨i, hi, hp⟩ := hex
        obtain ⟨e, he, hv⟩ := List.any_eq_true.mp hp
        refine ⟨ballots.getD i [], ?_, e, he, by simpa using hv⟩
        rw [List.getD_eq_getElem _ _ hi]
        exact List.getElem_mem _
      · split at hrow
        · exact absurd hrow (by simp)
        · exact absurd hrow (by simp)
  · rintro ⟨r, hr, e, he, hviol⟩
    have hml : ¬ maxLen ballots = 0 := by
      have h1 := maxLen_ge ballots r hr
      have h2 : 1 ≤ r.length := by
        cases r with
        | nil => exact absurd he (List.not_mem_nil e)
        | cons a t => simp
      omega
    obtain ⟨i, hi, hri⟩ := List.mem_iff_getElem.mp hr
    have hpi : ((ballots.getD i []).any fun e =>
        decide (e < 0) || decide ((numCands : ℤ) < e)) = true := by
      rw [List.getD_eq_getElem _ _ hi, hri]
      exact List.any_eq_true.mpr ⟨e, he, by simpa using hviol⟩
    have hoobne : check_oob (ballots.map fun r => (padTo r (maxLen ballots)).map toInt8)
        numCands ≠ [] := by
      rw [hco]
      intro hnil
      have := idxWhere_eq_nil.mp hnil i hi
      rw [hpi] at this
      exact absurd this (by simp)
    refine ⟨check_oob (ballots.map fun r => (padTo r (maxLen ballots)).map toInt8)
      numCands, ?_⟩
    rw [validate_and_standardize_ballots, if_neg hml, if_pos hoobne]
  · intro rows hrow
    rw [validate_and_standardize_ballots] at hrow
    split at hrow
    · exact absurd hrow (by simp)
    · split at hrow
      · simp only [Except.error.injEq, RcvError.oob.injEq] at hrow
        rw [← hrow, hco]
      · split at hrow
        · exact absurd hrow (by simp)
        · exact absurd hrow (by simp)

theorem claim_C9_oob_witness :
    (∀ r ∈ [[(1 : ℤ), 0, 0], [1, 2, -1], [1, 2, 3]], ∀ e ∈ r, -128 ≤ e ∧ e ≤ 127) ∧
    (((∃ rows, validate_and_standardize_ballots [[(1 : ℤ), 0, 0], [1, 2, -1], [1, 2, 3]] 2
          = .error (.oob rows)) ↔
        ∃ r ∈ [[(1 : ℤ), 0, 0], [1, 2, -1], [1, 2, 3]], ∃ e ∈ r,
          e < 0 ∨ ((2 : ℕ) : ℤ) < e) ∧
      (∀ rows, validate_and_standardize_ballots [[(1 : ℤ), 0, 0], [1, 2, -1], [1, 2, 3]] 2
          = .error (.oob rows) →
        rows = idxWhere ([[(1 : ℤ), 0, 0], [1, 2, -1], [1, 2, 3]]).length
          (fun i => (([[(1 : ℤ), 0, 0], [1, 2, -1], [1, 2, 3]]).getD i []).any fun e =>
            decide (e < 0) || decide (((2 : ℕ) : ℤ) < e))) ∧
      validate_and_standardize_ballots [[1, 0, 0], [1, 2, -1], [1, 2, 3]] 2
        = .error (.oob [1, 2]) ∧
      (1 : ℕ) ∈ [1, 2]) := by
  refine ⟨by decide, claim_C9_oob [[(1 : ℤ), 0, 0], [1, 2, -1], [1, 2, 3]] 2 (by decide)⟩

/-- C10 — Exhausted mass never returns to play: in every `RaceResult` produced
by `run_rcv` on valid input (equal lengths, non-negative votes), the
exhausted-mass entry `count[0]` is non-decreasing from each round to the next:
the sentinel index `0` is never selected for election or elimination, and
weight placed on blank ballot slots is never moved or rescaled by any later
transfer. -/
theorem claim_C10_exhausted (race : RaceData) (mode : RoundMode) (pick : List ℕ → ℕ)
    (res : RaceResult) (hpick : PickMem pick)
    (hlen : race.votes.length = race.ballots.length)
    (hvotes : ∀ v ∈ race.votes, 0 ≤ v)
    (hrun : run_rcv race mode pick = .ok res) :
    List.Chain' (fun a b => a.count.getD 0 0 ≤ b.count.getD 0 0) res.rounds := by
  obtain ⟨M, rounds, hval, hloop, rfl⟩ := run_rcv_ok_inv hrun
  exact (runLoop_chain hpick _ _ _ (init_invN hval hlen hvotes) hloop).1

theorem claim_C10_exhausted_witness :
    run_rcv raceB .ADD_ONE_FLOOR pickHead
      = .ok ⟨raceB.metadata, [⟨[0, 2, 2, 1], [], [3], [(3, [(1, 1)])]⟩,
          ⟨[0, 3, 2, 0], [1], [], []⟩]⟩ ∧
    List.Chain' (fun a b : RoundResult => a.count.getD 0 0 ≤ b.count.getD 0 0)
      [⟨[0, 2, 2, 1], [], [3], [(3, [(1, 1)])]⟩, ⟨[0, 3, 2, 0], [1], [], []⟩] := by
  have hrun : run_rcv raceB .ADD_ONE_FLOOR pickHead
      = .ok ⟨raceB.metadata, [⟨[0, 2, 2, 1], [], [3], [(3, [(1, 1)])]⟩,
          ⟨[0, 3, 2, 0], [1], [], []⟩]⟩ := by with_unfolding_all decide
  exact ⟨hrun, claim_C10_exhausted raceB .ADD_ONE_FLOOR pickHead _ pickHead_mem rfl
    (by intro v hv; fin_cases hv <;> norm_num) hrun⟩

/-- The fixed context of scenario B's run (its validated ballot matrix). -/
def ctxB0 : Ctx := mkCtx raceB .ADD_ONE_FLOOR [[1, 2, 3, 0], [2, 1, 3, 0], [3, 1, 2, 0]]

/-- Scenario B's state after round 1 (candidate 3 eliminated, full transfer). -/
def st1B : St :=
  stFold ctxB0 [(3, 0)]
    { initSt ctxB0 with status := fun c => if c = 3 then -1 else (initSt ctxB0).status c }

/-- Scenario B's state after round 2 (candidate 1 elected, multiplier `3/3`). -/
def st2B : St :=
  stFold ctxB0 [(1, 1)]
    { st1B with status := fun c =>
        if st1B.status c = 0 ∧ ctxB0.vn ≤ tallyAt ctxB0 st1B.weights c then 1
        else st1B.status c }

/-- C6 — Elimination with full transfer (end-to-end scenario B): on the race
with 3 candidates, 1 seat, ballots `[[1,2,3],[2,1,3],[3,1,2]]` and votes
`[2,2,1]` under the default policy, every tie-break source satisfying the
membership guarantee gives exactly two rounds: round 1 eliminates candidate 3
(the unique minimum-tally candidate, multiplier `0`), transferring its single
vote to candidate 1; round 2 elects candidate 1 with count `3` against
threshold `3`. -/
theorem claim_C6_elimination (pick : List ℕ → ℕ) (hpick : PickMem pick) :
    run_rcv raceB .ADD_ONE_FLOOR pick
      = .ok ⟨raceB.metadata, [⟨[0, 2, 2, 1], [], [3], [(3, [(1, 1)])]⟩,
          ⟨[0, 3, 2, 0], [1], [], []⟩]⟩ ∧
    votesNeeded ((raceB.votes.map (fun v : ℤ => (v : ℚ))).sum)
      raceB.metadata.num_winners .ADD_ONE_FLOOR = 3 := by
  refine ⟨?_, by with_unfolding_all decide⟩
  have hvalB : validate_and_standardize_ballots raceB.ballots raceB.metadata.names.length
      = .ok [[1, 2, 3, 0], [2, 1, 3, 0], [3, 1, 2, 0]] := by decide
  have invB : InvC ctxB0 (initSt ctxB0) := init_invC hvalB rfl
  have hd1H : stepDecision pickHead ctxB0 (initSt ctxB0)
      = .ok ([], [3], [(3, 0)],
          fun c => if c = 3 then -1 else (initSt ctxB0).status c) := by
    with_unfolding_all rfl
  have hd1P : stepDecision pick ctxB0 (initSt ctxB0)
      = stepDecision pickHead ctxB0 (initSt ctxB0) :=
    stepDecision_congr_pick ctxB0 (initSt ctxB0) (fun h1 h2 =>
      (pick_singleton hpick _ 3 (by with_unfolding_all decide)).trans
        (pick_singleton pickHead_mem _ 3 (by with_unfolding_all decide)).symm)
  have hstep1H := step_eq_ok invB hd1H
  have hstep1P := (step_congr_pick ctxB0 (initSt ctxB0) hd1P).trans hstep1H
  have inv1 : InvC ctxB0 st1B := by
    show InvC ctxB0 (stFold ctxB0 [(3, 0)]
      { initSt ctxB0 with status := fun c => if c = 3 then -1 else (initSt ctxB0).status c })
    refine stFold_invC _ (invC_setStatus invB ?_) ?_
    · decide
    · intro cm hcm
      rw [List.mem_singleton] at hcm
      subst hcm
      decide
  have hd2H : stepDecision pickHead ctxB0 st1B
      = .ok ([1], [], [(1, 1)],
          fun c => if st1B.status c = 0 ∧ ctxB0.vn ≤ tallyAt ctxB0 st1B.weights c then 1
            else st1B.status c) := by
    with_unfolding_all rfl
  have hd2P : stepDecision pick ctxB0 st1B = stepDecision pickHead ctxB0 st1B :=
    stepDecision_congr_pick ctxB0 st1B (fun h1 h2 => absurd h2 (by with_unfolding_all decide))
  have hstep2H := step_eq_ok inv1 hd2H
  have hstep2P := (step_congr_pick ctxB0 st1B hd2P).trans hstep2H
  have hdone : ¬ cPos ctxB0.numSlots st2B.status < ctxB0.W := by
    with_unfolding_all decide
  have h0 : cPos ctxB0.numSlots (initSt ctxB0).status < ctxB0.W := by decide
  have h1run : cPos ctxB0.numSlots st1B.status < ctxB0.W := by with_unfolding_all decide
  have htail : runLoop pick ctxB0 1 st2B = .ok [] := runLoop_done 1 st2B hdone
  have hloopP := runLoop_cons h0 hstep1P (runLoop_cons h1run hstep2P htail)
  simp only [run_rcv, hvalB, exBind_ok]
  show exBind (runLoop pick ctxB0 (1 + 1 + 1) (initSt ctxB0))
      (fun rounds => Except.ok (⟨raceB.metadata, rounds⟩ : RaceResult))
    = Except.ok (⟨raceB.metadata, [⟨[0, 2, 2, 1], [], [3], [(3, [(1, 1)])]⟩,
        ⟨[0, 3, 2, 0], [1], [], []⟩]⟩ : RaceResult)
  rw [hloopP]
  simp only [exBind_ok]
  with_unfolding_all decide

theorem claim_C6_elimination_witness :
    PickMem pickHead ∧
    (run_rcv raceB .ADD_ONE_FLOOR pickHead
        = .ok ⟨raceB.metadata, [⟨[0, 2, 2, 1], [], [3], [(3, [(1, 1)])]⟩,
            ⟨[0, 3, 2, 0], [1], [], []⟩]⟩ ∧
      votesNeeded ((raceB.votes.map (fun v : ℤ => (v : ℚ))).sum)
        raceB.metadata.num_winners .ADD_ONE_FLOOR = 3) :=
  ⟨pickHead_mem, claim_C6_elimination pickHead pickHead_mem⟩


end PyRcv
